import Mathlib

/-!
Variadic template algorithms (`include/vta/algorithms.hpp`).

A shallow embedding of the transformation algebra of `vta`.

* A parameter pack `args...` is a `List α`; `sizeof...(args)` is its length.
* A callable that is handed a pack either is ill-formed for it (a failed
  `static_assert`, or no viable overload), returns `void` without having
  invoked anything, or returns a value: see `Outcome`.
* `X::transform(f, args...)` is a function of the continuation `f` and the
  pack, see `Transformation`.  Every transformation modelled here ends in a
  single `return Y::transform(...)`, so its outcome is the outcome of the one
  call it makes.
* `int` and `unsigned` template parameters are `Int` and `Nat`.  Packs are far
  shorter than `2^31`, so `sizeof...(args)` converts to `int` and `unsigned`
  without loss; arithmetic is reduced modulo `2^64` exactly where the source
  mixes a possibly negative `int` with `std::size_t`, or negates or
  decrements a `std::size_t`, in a way that changes the value.
-/

namespace vta

/-- What a call `X::transform(f, args...)` amounts to. -/
inductive Outcome (ρ : Type) where
  /-- the call is ill-formed: a `static_assert` fails or no overload is viable -/
  | rejected : Outcome ρ
  /-- the call returns `void` and the continuation has not been invoked -/
  | nothing : Outcome ρ
  /-- the call returns the value `r` -/
  | returned (r : ρ) : Outcome ρ
  deriving DecidableEq, Repr

/-- A continuation: a callable applied to a parameter pack. -/
abbrev Continuation (α ρ : Type) := List α → Outcome ρ

/-- A transformation `X`, read as `X::transform(f, args...)`. -/
abbrev Transformation (α ρ : Type) := Continuation α ρ → List α → Outcome ρ

/-- The continuation that returns the pack it is invoked with. -/
def capture {α : Type} : Continuation α (List α) := fun args => Outcome.returned args

/-- The elements a call has forwarded to `capture`: none when it was not invoked. -/
def forwarded {α : Type} : Outcome (List α) → List α
  | Outcome.returned args => args
  | _ => []

/-- Width of `std::size_t`. -/
def SIZE_BITS : Nat := 64

/-- Conversion of an `int` to `std::size_t`. -/
def toSizeT (i : Int) : Nat := (i % (2 : Int) ^ SIZE_BITS).toNat

/-- Unary minus on a `std::size_t`. -/
def negSizeT (n : Nat) : Nat := (2 ^ SIZE_BITS - n % 2 ^ SIZE_BITS) % 2 ^ SIZE_BITS

/-- Sum of two `std::size_t`. -/
def addSizeT (a b : Nat) : Nat := (a + b) % 2 ^ SIZE_BITS

section transformations

variable {α ρ : Type}

/-- Models `detail::compose_helper_f<Function, Transforms...>::operator()`. -/
def compose_helper_f (f : Continuation α ρ) : List (Transformation α ρ) → Continuation α ρ
  | [], args => f args
  | FirstTransform :: Transforms, args => FirstTransform (compose_helper_f f Transforms) args

/-- Models `compose<Transforms...>`. -/
def compose (Transforms : List (Transformation α ρ)) : Transformation α ρ :=
  fun f args => compose_helper_f f Transforms args

/-- Models `id`: forwards the arguments to `f` without change. -/
def id : Transformation α ρ := fun f args => f args

/-- Models `forward_if<Condition>`. -/
def forward_if (Condition : Bool) : Transformation α ρ :=
  fun f args => if Condition then id f args else Outcome.nothing

/-- Models `flip`: flips the first two variables. -/
def flip : Transformation α ρ
  | f, first :: second :: rest => f (second :: first :: rest)
  | _, _ => Outcome.rejected

/-- Models `left_shift<N>`. -/
def left_shift : Nat → Transformation α ρ
  | 0, f, rest => id f rest
  | _ + 1, _, [] => Outcome.rejected
  | N + 1, f, first :: rest =>
    if N + 1 < 1 + rest.length then left_shift N f (rest ++ [first]) else Outcome.rejected

/-- Models `right_shift<N>`. -/
def right_shift : Nat → Transformation α ρ
  | 0, f, rest => id f rest
  | N + 1, f, args =>
    if N + 1 < args.length then left_shift (args.length - (N + 1)) f args else Outcome.rejected

/-- Models `shift<N>`, dispatching on `N >= 0`. -/
def shift (N : Int) : Transformation α ρ :=
  fun f args => if 0 ≤ N then left_shift N.toNat f args else right_shift (-N).toNat f args

/-- Models `left_shift_tail<N>`. -/
def left_shift_tail : Nat → Transformation α ρ
  | 0, f, rest => id f rest
  | N + 1, f, fixed :: first :: rest =>
    if N + 1 < 1 + rest.length then left_shift_tail N f (fixed :: (rest ++ [first]))
    else Outcome.rejected
  | _ + 1, _, _ => Outcome.rejected

/-- Models `right_shift_tail<N>`.  On an empty pack `sizeof...(args) - 1` wraps to `2^64 - 1`,
so the assertion holds, and the shift count `sizeof...(Args) - N - 1` wraps and is
truncated to the `unsigned` parameter of `left_shift_tail`; on any other pack both
differences are exact. -/
def right_shift_tail : Nat → Transformation α ρ
  | 0, f, rest => id f rest
  | N + 1, f, [] => left_shift_tail ((2 ^ SIZE_BITS - (N + 1) - 1) % 2 ^ 32) f []
  | N + 1, f, arg :: args =>
    if N + 1 < (arg :: args).length - 1 then
      left_shift_tail ((arg :: args).length - (N + 1) - 1) f (arg :: args)
    else Outcome.rejected

/-- Models `shift_tail<N>`, dispatching on `N >= 0`. -/
def shift_tail (N : Int) : Transformation α ρ :=
  fun f args =>
    if 0 ≤ N then left_shift_tail N.toNat f args else right_shift_tail (-N).toNat f args

/-- Models `drop<N>`: drops the first `N` arguments. -/
def drop : Nat → Transformation α ρ
  | 0, f, args => id f args
  | _ + 1, _, [] => Outcome.rejected
  | N + 1, f, _ :: args =>
    if N + 1 ≤ args.length + 1 then drop N f args else Outcome.rejected

/-- Models `detail::take_helper<N, ForwardAll>`. -/
def take_helper (N : Nat) (ForwardAll : Bool) : Transformation α ρ :=
  fun f args =>
    if ForwardAll then id f args
    else compose [left_shift N, drop (args.length - N)] f args

/-- Models `take<N>`: passes only the first `N` arguments; `take<0u>` is the empty `void` body. -/
def take : Nat → Transformation α ρ
  | 0, _, _ => Outcome.nothing
  | N + 1, f, args =>
    if N + 1 ≤ args.length then take_helper (N + 1) (decide (N + 1 = args.length)) f args
    else Outcome.rejected

/-- Models `slice<N, M>::m_slice<A, B>`, which `slice` reaches only with `A ≤ B`. -/
def m_slice (A B : Nat) : Transformation α ρ :=
  fun f args => compose [left_shift A, drop (args.length - (B - A))] f args

/-- Models `slice<N, M>`.  Both bounds checks compare in `std::size_t`: `-sizeof...(args)` is
an unsigned negation and `N`, `M` are converted to `std::size_t`.  `A` and `B` are
`int`; with an empty pack their initialisers divide by zero. -/
def slice (N M : Int) : Transformation α ρ :=
  fun f args =>
    if ¬ (negSizeT args.length ≤ toSizeT N ∧ toSizeT N ≤ args.length) then Outcome.rejected
    else if ¬ (negSizeT args.length ≤ toSizeT M ∧ toSizeT M ≤ args.length) then Outcome.rejected
    else if args.length = 0 then Outcome.rejected
    else
      let A : Int := (addSizeT (toSizeT N) args.length % args.length : Nat)
      let B : Int := (addSizeT (toSizeT M) args.length % args.length : Nat)
      if ¬ (A ≤ B) then Outcome.rejected
      else if ¬ (toSizeT B ≤ args.length) then Outcome.rejected
      else m_slice A.toNat B.toNat f args

/-- Models `swap<N, M>::swap_helper<Min, Max>`, with its specialisation for `Min == Max`. -/
def swap_helper (Min Max : Int) : Transformation α ρ :=
  fun f args =>
    if Min = Max then id f args
    else compose [shift Min, shift_tail (Max - Min - 1), flip,
                  shift_tail (-(Max - Min - 1)), shift (-Min)] f args

/-- Models `swap<N, M>`.  `size` is the pack size as an `int`, so both bounds checks are signed;
once they hold, `N + sizeof...(args)` in `std::size_t` is the exact sum `N + size`. -/
def swap (N M : Int) : Transformation α ρ :=
  fun f args =>
    let size : Int := args.length
    if ¬ (-size ≤ N ∧ N < size) then Outcome.rejected
    else if ¬ (-size ≤ M ∧ M < size) then Outcome.rejected
    else
      let A : Int := (N + size) % size
      let B : Int := (M + size) % size
      let min : Int := if A < B then A else B
      let max : Int := if A < B then B else A
      swap_helper min max f args

/-- Models `cycle<First, Rest...>` once `First` is fixed: `cycle<First>` is `id`, and
`cycle<First, Second, Rest...>` is `compose<swap<First, Second>, cycle<First, Rest...>>`. -/
def cycle_from (First : Int) : List Int → Transformation α ρ
  | [] => id
  | Second :: Rest => compose [swap First Second, cycle_from First Rest]

/-- Models `cycle<Positions...>`. -/
def cycle : List Int → Transformation α ρ
  | [] => id
  | First :: Rest => cycle_from First Rest

/-- Models `detail::reverse_helper<N>`: the overloads for no argument (an empty body), for one
argument, and for two or more; `reverse_helper<0u>` forwards.  The template argument
`-N` of `swap`, an `unsigned` negation converted to `int`, is the `int` of value `-N`. -/
def reverse_helper : Nat → Transformation α ρ
  | 0, f, args => id f args
  | _ + 1, _, [] => Outcome.nothing
  | _ + 1, f, [arg] => id f [arg]
  | N + 1, f, first :: second :: args =>
    compose [swap ((N + 1 : Nat) - 1) (-((N + 1 : Nat) : Int)), reverse_helper N] f
      (first :: second :: args)

/-- Models `reverse`: reverse the order of arguments. -/
def reverse : Transformation α ρ :=
  fun f args => reverse_helper (args.length / 2) f args

end transformations

section consumers

variable {α ρ : Type}

/-- Whether the declaration of the primary template `detail::next_has_passed`
(`algorithms.hpp`, line 546) is well-formed.  It reads
`template <template <class> class Predicate, bool Passed, typename... Passed>`: two of its
template parameters are named `Passed`, and a template parameter shall not be redeclared
within its scope, so it is not. -/
def next_has_passed_well_formed : Bool := false

/-- Models `detail::next_has_passed<Predicate, Passed, Passed...>::transform` on
`passed..., next, rest...`.  The template's declaration is ill-formed, so every use of it
is.  As written, with `true` it goes on in `filter_helper<Predicate, Passed..., Next>`,
with `false` it leaves `next` out and goes on in `filter_helper<Predicate, Passed...>`;
the call of `filter_helper` on the remaining `rest...` is handed in as `helper_on_rest`, a
function of the pack of passed arguments. -/
def next_has_passed (Passed : Bool) (passed : List α) (next : α)
    (helper_on_rest : List α → Outcome ρ) : Outcome ρ :=
  if next_has_passed_well_formed then
    if Passed then helper_on_rest (passed ++ [next]) else helper_on_rest passed
  else Outcome.rejected

/-- Models `detail::filter_helper<Predicate, Passed...>::transform` on `passed...` followed
by the arguments still to be evaluated.  An element stands for an argument together with
its deduced type, which is what `Predicate` reads.  The template is declared and defined
in terms of `next_has_passed`, whose declaration is ill-formed, so neither of its two
overloads can be called. -/
def filter_helper (Predicate : α → Bool) : List α → Continuation α ρ → List α → Outcome ρ
  | passed, f, [] => if next_has_passed_well_formed then f passed else Outcome.rejected
  | passed, f, next :: rest =>
    next_has_passed (Predicate next) passed next
      (fun passed_on => filter_helper Predicate passed_on f rest)

/-- Models `filter<Predicate>`, which hands the pack to `filter_helper<Predicate>`. -/
def filter (Predicate : α → Bool) : Transformation α ρ :=
  fun f args => filter_helper Predicate [] f args

/-- The packs a function object has been invoked with, in order. -/
abbrev Calls (α : Type) := List (List α)

/-- The function object that does nothing but be invoked: its outcome is its one call. -/
def observe : Continuation α (Calls α) := fun args => Outcome.returned [args]

/-- The calls made by a statement whose value is discarded: none when nothing was
invoked. -/
def callsOf : Outcome (Calls α) → Calls α
  | Outcome.returned calls => calls
  | _ => []

/-- Two statements in sequence, each a discarded call: ill-formed when either is, else the
calls of the first followed by the calls of the second. -/
def andThen (first second : Outcome (Calls α)) : Outcome (Calls α) :=
  match first, second with
  | Outcome.rejected, _ => Outcome.rejected
  | _, Outcome.rejected => Outcome.rejected
  | first, second => Outcome.returned (callsOf first ++ callsOf second)

/-- Models `adjacent_map_f<N, Function>::operator()`, which needs a first argument:
`take<N>` on the whole pack, then `forward_if<(sizeof...(args) >= N)>` on the rest with
`*this` as the continuation (which `forward_if` applies to that rest only). -/
def adjacent_map_f (N : Nat) (mF : Continuation α (Calls α)) : Continuation α (Calls α)
  | [] => Outcome.rejected
  | first :: args =>
    andThen (take N mF (first :: args))
      (forward_if (decide (args.length ≥ N)) (fun _ => adjacent_map_f N mF args) args)

/-- Models `adjacent_map<N>(f)`. -/
def adjacent_map (N : Nat) (f : Continuation α (Calls α)) : Continuation α (Calls α) :=
  adjacent_map_f N f

/-- Models a call `(*this)(first, args...)` made inside `foldl_f`, where the private
one-argument `operator()` is accessible: it returns its argument, and the overload for
two or more arguments combines the first two with `mF` and calls again. -/
def foldl_f_self (mF : α → α → α) : α → List α → α
  | arg, [] => arg
  | first, second :: args => foldl_f_self mF (mF first second) args

/-- Models a call of `foldl_f<Function>::operator()` from outside the class: only the
overloads for two or more arguments are public. -/
def foldl_f (mF : α → α → α) : List α → Outcome α
  | first :: second :: args => Outcome.returned (foldl_f_self mF (mF first second) args)
  | _ => Outcome.rejected

/-- Models `foldl(f)`. -/
def foldl (f : α → α → α) : List α → Outcome α := foldl_f f

/-- Models `all_of_f<Function>::operator()`. -/
def all_of_f (mF : α → Bool) : List α → Bool
  | [] => true
  | first :: args => if mF first then all_of_f mF args else false

/-- Models `all_of(f)`. -/
def all_of (f : α → Bool) : List α → Bool := all_of_f f

/-- Models `any_of_f<Function>::operator()`. -/
def any_of_f (mF : α → Bool) : List α → Bool
  | [] => false
  | first :: args => if mF first then true else any_of_f mF args

/-- Models `any_of(f)`. -/
def any_of (f : α → Bool) : List α → Bool := any_of_f f

/-- Models `head(head, args...)`. -/
def head : List α → Outcome α
  | head :: _ => Outcome.returned head
  | [] => Outcome.rejected

/-- Models `last`: the overload for one argument returns it, the overload for two or more
leaves out its first two arguments and calls `last` on the rest. -/
def last : List α → Outcome α
  | [] => Outcome.rejected
  | [arg] => Outcome.returned arg
  | _ :: _ :: rest => last rest

/-- Models `detail::at_helper<N>::get`. -/
def at_helper : Nat → List α → Outcome α
  | 0, args => head args
  | _ + 1, [] => Outcome.rejected
  | N + 1, _ :: args => at_helper N args

/-- Models `at<N>(args...)` (`at` is reserved in Lean).  The bounds check is signed, the
size being cast to `int`; once it holds, `N + sizeof...(args)` in `std::size_t` is the
exact sum. -/
def at_ (N : Int) (args : List α) : Outcome α :=
  let size : Int := args.length
  if ¬ (-size ≤ N ∧ N < size) then Outcome.rejected
  else at_helper ((N + size) % size).toNat args

/-- Models `none_of_f<Function>::operator()`. -/
def none_of_f (mF : α → Bool) : List α → Bool
  | [] => true
  | first :: args => if mF first then false else none_of_f mF args

/-- Models `none_of(f)`. -/
def none_of (f : α → Bool) : List α → Bool := none_of_f f

/-- Models `is_unique<M, Ns...>::value` once `M` is fixed: `is_unique<M>` is true, and
`is_unique<M, N, Ns...>` is `(M != N) && is_unique<M, Ns...> && is_unique<N, Ns...>`. -/
def is_unique_from (M : Int) : List Int → Bool
  | [] => true
  | N :: Ns => (M != N) && is_unique_from M Ns && is_unique_from N Ns

/-- Models `is_unique<Ns...>::value`. -/
def is_unique : List Int → Bool
  | [] => true
  | M :: Ns => is_unique_from M Ns

/-- Models `all_of_f<Function>::operator()` for a function object with effects: a call of
`mF` on an argument in a state gives its value and the next state.  The conditional
operator evaluates `mF(first)` and then only the branch it selects. -/
def all_of_f_in {σ : Type} (mF : α → σ → Bool × σ) : List α → σ → Bool × σ
  | [], state => (true, state)
  | first :: args, state =>
    if (mF first state).1 then all_of_f_in mF args (mF first state).2
    else (false, (mF first state).2)

/-- The predicate `p` as a function object whose state is the list of the arguments it has
been applied to so far. -/
def logged (p : α → Bool) : α → List α → Bool × List α :=
  fun arg log => (p arg, log ++ [arg])

/-- The normalised position `(P + n) mod n` of an index `P` in a pack of length `n`. -/
def normalise (n : Nat) (P : Int) : Nat := ((P + n) % n).toNat

/-- The transposition of the positions `a` and `b`. -/
def transpose (a b j : Nat) : Nat := if j = a then b else if j = b then a else j

/-- The input position whose element stands at position `j` after exchanging position
`first` with each position of `others` in turn. -/
def cycle_source (first : Nat) : List Nat → Nat → Nat
  | [], j => j
  | other :: others, j => transpose first other (cycle_source first others j)

end consumers

section shifts

variable {α ρ : Type}

theorem left_shift_append (f : Continuation α ρ) (A : List α) :
    ∀ B : List α, (A = [] ∨ B ≠ []) → left_shift A.length f (A ++ B) = f (B ++ A) := by
  induction A with
  | nil => intro B _; simp [left_shift, id]
  | cons a A ih =>
    intro B h
    have hB : B ≠ [] := by simpa using h
    have hlen : 0 < B.length := List.length_pos.mpr hB
    have step := ih (B ++ [a]) (Or.inr (by simp))
    show left_shift (A.length + 1) f (a :: (A ++ B)) = f (B ++ a :: A)
    rw [left_shift, if_pos (by simp only [List.length_append]; omega)]
    simpa [List.append_assoc] using step

theorem left_shift_tail_append (f : Continuation α ρ) (x : α) (A : List α) :
    ∀ B : List α, (A = [] ∨ B ≠ []) →
      left_shift_tail A.length f (x :: (A ++ B)) = f (x :: (B ++ A)) := by
  induction A with
  | nil => intro B _; simp [left_shift_tail, id]
  | cons a A ih =>
    intro B h
    have hB : B ≠ [] := by simpa using h
    have hlen : 0 < B.length := List.length_pos.mpr hB
    have step := ih (B ++ [a]) (Or.inr (by simp))
    show left_shift_tail (A.length + 1) f (x :: a :: (A ++ B)) = f (x :: (B ++ a :: A))
    rw [left_shift_tail, if_pos (by simp only [List.length_append]; omega)]
    simpa [List.append_assoc] using step

theorem drop_append (f : Continuation α ρ) (A : List α) :
    ∀ B : List α, drop A.length f (A ++ B) = f B := by
  induction A with
  | nil => intro B; simp [drop, id]
  | cons a A ih =>
    intro B
    show drop (A.length + 1) f (a :: (A ++ B)) = f B
    rw [drop, if_pos (by simp only [List.length_append]; omega)]
    exact ih B

theorem right_shift_append (f : Continuation α ρ) (A B : List α) (h : B = [] ∨ A ≠ []) :
    right_shift B.length f (A ++ B) = f (B ++ A) := by
  cases B with
  | nil => simp [right_shift, id]
  | cons b B =>
    have hA : A ≠ [] := by simpa using h
    have hlen : 0 < A.length := List.length_pos.mpr hA
    show right_shift (B.length + 1) f (A ++ b :: B) = f (b :: B ++ A)
    rw [right_shift, if_pos (by simp only [List.length_append, List.length_cons]; omega)]
    have hcount : (A ++ b :: B).length - (B.length + 1) = A.length := by
      simp only [List.length_append, List.length_cons]; omega
    rw [hcount]
    exact left_shift_append f A (b :: B) (Or.inr (by simp))

/-- The call `left_shift<N>` is ill-formed unless `N` is zero or less than the pack size. -/
theorem left_shift_rejected (f : Continuation α ρ) (N : Nat) (xs : List α)
    (h : ¬ (N = 0 ∨ N < xs.length)) : left_shift N f xs = Outcome.rejected := by
  match N, xs, h with
  | 0, _, h => exact absurd (Or.inl rfl) h
  | _ + 1, [], _ => rfl
  | N + 1, first :: rest, h =>
    rw [left_shift, if_neg]
    intro hlt
    exact h (Or.inr (by simp only [List.length_cons]; omega))

/-- The outcome of `left_shift<N>` on a pack it accepts. -/
theorem left_shift_eq (f : Continuation α ρ) (N : Nat) (xs : List α)
    (h : N = 0 ∨ N < xs.length) : left_shift N f xs = f (xs.drop N ++ xs.take N) := by
  have hlen : (xs.take N).length = N := by
    rw [List.length_take]
    rcases h with h | h <;> omega
  have hcase : xs.take N = [] ∨ xs.drop N ≠ [] := by
    rcases h with h | h
    · left; subst h; rfl
    · right
      intro hnil
      have := congrArg List.length hnil
      rw [List.length_drop] at this
      simp at this
      omega
  have step := left_shift_append f (xs.take N) (xs.drop N) hcase
  rwa [hlen, List.take_append_drop] at step

/-- The outcome of `drop<N>` on a pack of at least `N` elements. -/
theorem drop_eq (f : Continuation α ρ) (N : Nat) (xs : List α) (h : N ≤ xs.length) :
    drop N f xs = f (xs.drop N) := by
  have hlen : (xs.take N).length = N := by rw [List.length_take]; omega
  have step := drop_append f (xs.take N) (xs.drop N)
  rwa [hlen, List.take_append_drop] at step

/-- The outcome of `take<N>`, `N > 0`, on a pack of at least `N` elements. -/
theorem take_eq (f : Continuation α ρ) (N : Nat) (xs : List α) (h1 : 1 ≤ N)
    (h2 : N ≤ xs.length) : take N f xs = f (xs.take N) := by
  obtain ⟨k, rfl⟩ : ∃ k, N = k + 1 := ⟨N - 1, by omega⟩
  rw [take, if_pos h2]
  by_cases hall : k + 1 = xs.length
  · simp only [take_helper, hall, decide_True, if_true, id]
    rw [List.take_of_length_le (Nat.le_refl _)]
  · have hlt : k + 1 < xs.length := by omega
    simp only [take_helper, hall, decide_False, Bool.false_eq_true, if_false, compose]
    rw [compose_helper_f, left_shift_eq _ _ _ (Or.inr hlt), compose_helper_f]
    have hcount : xs.length - (k + 1) = (xs.drop (k + 1)).length := by
      rw [List.length_drop]
    rw [hcount, drop_append, compose_helper_f]

theorem shift_nonneg_append (f : Continuation α ρ) (A B : List α) (h : A = [] ∨ B ≠ []) :
    shift (A.length : Int) f (A ++ B) = f (B ++ A) := by
  simp only [shift, if_pos (Int.natCast_nonneg A.length), Int.toNat_ofNat]
  exact left_shift_append f A B h

theorem shift_neg_append (f : Continuation α ρ) (A B : List α) (h : B = [] ∨ A ≠ []) :
    shift (-(B.length : Int)) f (A ++ B) = f (B ++ A) := by
  cases B with
  | nil => simp [shift, left_shift, id]
  | cons b B =>
    have hneg : ¬ (0 : Int) ≤ -(((b :: B).length : Nat) : Int) := by
      simp only [List.length_cons]; omega
    simp only [shift, if_neg hneg, Int.neg_neg, Int.toNat_ofNat]
    exact right_shift_append f A (b :: B) h

theorem shift_tail_nonneg_append (f : Continuation α ρ) (x : α) (A B : List α)
    (h : A = [] ∨ B ≠ []) :
    shift_tail (A.length : Int) f (x :: (A ++ B)) = f (x :: (B ++ A)) := by
  simp only [shift_tail, if_pos (Int.natCast_nonneg A.length), Int.toNat_ofNat]
  exact left_shift_tail_append f x A B h

theorem shift_tail_neg_append (f : Continuation α ρ) (x : α) (A B : List α)
    (h : B = [] ∨ A ≠ []) :
    shift_tail (-(B.length : Int)) f (x :: (A ++ B)) = f (x :: (B ++ A)) := by
  cases B with
  | nil => simp [shift_tail, left_shift_tail, id]
  | cons b B =>
    have hA : A ≠ [] := by simpa using h
    have hlen : 0 < A.length := List.length_pos.mpr hA
    have hneg : ¬ (0 : Int) ≤ -(((b :: B).length : Nat) : Int) := by
      simp only [List.length_cons]; omega
    simp only [shift_tail, if_neg hneg, Int.neg_neg, Int.toNat_ofNat]
    show right_shift_tail (B.length + 1) f (x :: (A ++ b :: B)) = f (x :: (b :: B ++ A))
    rw [right_shift_tail,
      if_pos (by simp only [List.length_append, List.length_cons]; omega)]
    have hcount : (x :: (A ++ b :: B)).length - (B.length + 1) - 1 = A.length := by
      simp only [List.length_append, List.length_cons]; omega
    rw [hcount]
    exact left_shift_tail_append f x A (b :: B) (Or.inr (by simp))

/-- The five stages of `swap_helper` on a pack split around the two positions. -/
theorem swap_helper_split (f : Continuation α ρ) (L Mid R : List α) (a b : α) :
    swap_helper (L.length : Int) ((L.length : Int) + 1 + Mid.length) f
        (L ++ a :: (Mid ++ b :: R)) = f (L ++ b :: (Mid ++ a :: R)) := by
  have hne : (L.length : Int) ≠ (L.length : Int) + 1 + Mid.length := by omega
  have hk : (L.length : Int) + 1 + Mid.length - L.length - 1 = (Mid.length : Int) := by omega
  simp only [swap_helper, if_neg hne, compose, hk]
  rw [compose_helper_f, shift_nonneg_append _ L _ (Or.inr (by simp))]
  have e1 : a :: (Mid ++ b :: R) ++ L = a :: (Mid ++ (b :: (R ++ L))) := by simp
  rw [e1, compose_helper_f, shift_tail_nonneg_append _ a Mid _ (Or.inr (by simp))]
  rw [compose_helper_f]
  show compose_helper_f f _ (b :: a :: ((R ++ L) ++ Mid)) = _
  have e2 : b :: a :: ((R ++ L) ++ Mid) = b :: ((a :: (R ++ L)) ++ Mid) := by simp
  rw [e2, compose_helper_f, shift_tail_neg_append _ b _ Mid (Or.inr (by simp))]
  have e3 : b :: (Mid ++ a :: (R ++ L)) = (b :: (Mid ++ a :: R)) ++ L := by simp
  rw [e3, compose_helper_f, shift_neg_append _ _ L (Or.inr (by simp))]
  rw [compose_helper_f]

end shifts

section positions

variable {α ρ : Type}

/-- A pack split around two positions `i < j`. -/
theorem split_at_two (xs : List α) (i j : Nat) (hij : i < j) (hj : j < xs.length) :
    ∃ (L Mid R : List α) (a b : α),
      xs = L ++ a :: (Mid ++ b :: R) ∧ L.length = i ∧ L.length + 1 + Mid.length = j := by
  have hi : i < xs.length := by omega
  have h1 : xs = xs.take i ++ xs[i] :: xs.drop (i + 1) := by
    rw [← List.drop_eq_getElem_cons hi, List.take_append_drop]
  have hlen : (xs.drop (i + 1)).length = xs.length - (i + 1) := List.length_drop _ _
  have hk : j - i - 1 < (xs.drop (i + 1)).length := by omega
  have h2 : xs.drop (i + 1) = (xs.drop (i + 1)).take (j - i - 1)
      ++ (xs.drop (i + 1))[j - i - 1] :: (xs.drop (i + 1)).drop (j - i - 1 + 1) := by
    rw [← List.drop_eq_getElem_cons hk, List.take_append_drop]
  refine ⟨xs.take i, (xs.drop (i + 1)).take (j - i - 1),
    (xs.drop (i + 1)).drop (j - i - 1 + 1), xs[i], (xs.drop (i + 1))[j - i - 1], ?_, ?_, ?_⟩
  · rw [← h2]; exact h1
  · rw [List.length_take]; omega
  · rw [List.length_take, List.length_take]; omega

/-- Element-wise description of a pack with two of its elements exchanged. -/
theorem exchange_getElem (L Mid R : List α) (a b : α) :
    (L ++ b :: (Mid ++ a :: R)).length = (L ++ a :: (Mid ++ b :: R)).length ∧
    (L ++ b :: (Mid ++ a :: R))[L.length]? = some b ∧
    (L ++ a :: (Mid ++ b :: R))[L.length]? = some a ∧
    (L ++ b :: (Mid ++ a :: R))[L.length + 1 + Mid.length]? = some a ∧
    (L ++ a :: (Mid ++ b :: R))[L.length + 1 + Mid.length]? = some b ∧
    ∀ i : Nat, i ≠ L.length → i ≠ L.length + 1 + Mid.length →
      (L ++ b :: (Mid ++ a :: R))[i]? = (L ++ a :: (Mid ++ b :: R))[i]? := by
  have key : ∀ (x y : α) (i : Nat),
      (L ++ x :: (Mid ++ y :: R))[i]? =
        if i < L.length then L[i]?
        else if i = L.length then some x
        else if i < L.length + 1 + Mid.length then Mid[i - L.length - 1]?
        else if i = L.length + 1 + Mid.length then some y
        else R[i - L.length - 1 - Mid.length - 1]? := by
    intro x y i
    by_cases h1 : i < L.length
    · rw [if_pos h1, List.getElem?_append_left h1]
    · rw [if_neg h1, List.getElem?_append_right (by omega)]
      by_cases h2 : i = L.length
      · rw [if_pos h2, h2]; simp
      · rw [if_neg h2]
        obtain ⟨k, hk⟩ : ∃ k, i - L.length = k + 1 := ⟨i - L.length - 1, by omega⟩
        rw [hk, List.getElem?_cons_succ]
        by_cases h3 : i < L.length + 1 + Mid.length
        · rw [if_pos h3, List.getElem?_append_left (by omega)]
          simp
        · rw [if_neg h3, List.getElem?_append_right (by omega)]
          by_cases h4 : i = L.length + 1 + Mid.length
          · rw [if_pos h4]
            have : k - Mid.length = 0 := by omega
            rw [this]; simp
          · rw [if_neg h4]
            obtain ⟨m, hm⟩ : ∃ m, k - Mid.length = m + 1 := ⟨k - Mid.length - 1, by omega⟩
            rw [hm, List.getElem?_cons_succ]
            congr 1; omega
  refine ⟨by simp, ?_, ?_, ?_, ?_, ?_⟩
  · rw [key]; simp
  · rw [key]; simp
  · rw [key, if_neg (by omega), if_neg (by omega), if_neg (by omega), if_pos rfl]
  · rw [key, if_neg (by omega), if_neg (by omega), if_neg (by omega), if_pos rfl]
  · intro i hi hj
    rw [key, key]
    simp [hi, hj]

/-- Past its bounds checks `swap<N, M>` is `swap_helper` at the normalised positions. -/
theorem swap_eq_swap_helper (f : Continuation α ρ) (N M : Int) (xs : List α)
    (hN : -(xs.length : Int) ≤ N ∧ N < xs.length)
    (hM : -(xs.length : Int) ≤ M ∧ M < xs.length) :
    swap N M f xs =
      swap_helper
        (if (N + xs.length) % xs.length < (M + xs.length) % xs.length
          then (N + xs.length) % xs.length else (M + xs.length) % xs.length)
        (if (N + xs.length) % xs.length < (M + xs.length) % xs.length
          then (M + xs.length) % xs.length else (N + xs.length) % xs.length) f xs := by
  simp only [swap, hN, hM, and_self, not_true_eq_false, if_false]

/-- The normalised position of an in-bounds index. -/
theorem normalize_bounds (N : Int) (n : Nat) (hN : -(n : Int) ≤ N ∧ N < n) :
    0 ≤ (N + n) % n ∧ (N + n) % n < n ∧ (((N + n) % n).toNat : Int) = (N + n) % n ∧
      ((N + n) % n).toNat < n := by
  have hn : (0 : Int) < n := by omega
  have h0 : 0 ≤ (N + n) % n := Int.emod_nonneg _ (by omega)
  have h1 : (N + n) % n < n := Int.emod_lt_of_pos _ hn
  refine ⟨h0, h1, Int.toNat_of_nonneg h0, ?_⟩
  omega

/-- The outcome of `swap<N, M>` and of `swap<M, N>` on a pack split around the two
normalised positions. -/
theorem swap_split (f : Continuation α ρ) (N M : Int) (L Mid R : List α) (a b : α)
    (hN : -((L ++ a :: (Mid ++ b :: R)).length : Int) ≤ N ∧
      N < (L ++ a :: (Mid ++ b :: R)).length)
    (hM : -((L ++ a :: (Mid ++ b :: R)).length : Int) ≤ M ∧
      M < (L ++ a :: (Mid ++ b :: R)).length)
    (hA : (N + (L ++ a :: (Mid ++ b :: R)).length) % (L ++ a :: (Mid ++ b :: R)).length
      = L.length)
    (hB : (M + (L ++ a :: (Mid ++ b :: R)).length) % (L ++ a :: (Mid ++ b :: R)).length
      = (L.length : Int) + 1 + Mid.length) :
    swap N M f (L ++ a :: (Mid ++ b :: R)) = f (L ++ b :: (Mid ++ a :: R)) ∧
    swap M N f (L ++ a :: (Mid ++ b :: R)) = f (L ++ b :: (Mid ++ a :: R)) := by
  have hlt : (L.length : Int) < (L.length : Int) + 1 + Mid.length := by omega
  have hnlt : ¬ ((L.length : Int) + 1 + Mid.length < (L.length : Int)) := by omega
  constructor
  · rw [swap_eq_swap_helper f N M _ hN hM, hA, hB, if_pos hlt, if_pos hlt]
    exact swap_helper_split f L Mid R a b
  · rw [swap_eq_swap_helper f M N _ hM hN, hA, hB, if_neg hnlt, if_neg hnlt]
    exact swap_helper_split f L Mid R a b

/-- When both indices normalise to the same position, `swap<N, M>` forwards the pack. -/
theorem swap_same (f : Continuation α ρ) (N M : Int) (xs : List α)
    (hN : -(xs.length : Int) ≤ N ∧ N < xs.length)
    (hM : -(xs.length : Int) ≤ M ∧ M < xs.length)
    (h : (N + xs.length) % xs.length = (M + xs.length) % xs.length) :
    swap N M f xs = f xs := by
  rw [swap_eq_swap_helper f N M xs hN hM, h]
  simp [swap_helper, id]

/-- On two or more arguments `reverse_helper<N>`, `N > 0`, is its third overload. -/
theorem reverse_helper_succ (f : Continuation α ρ) (N : Nat) (xs : List α)
    (h : 2 ≤ xs.length) :
    reverse_helper (N + 1) f xs
      = swap ((N + 1 : Nat) - 1) (-((N + 1 : Nat) : Int)) (reverse_helper N f) xs := by
  match xs, h with
  | first :: second :: args, _ => rfl

/-- The `N` nested swaps of `reverse_helper<N>` reverse the outer `N` positions of each
end of the pack and leave the middle in place. -/
theorem reverse_helper_split (f : Continuation α ρ) (N : Nat) :
    ∀ L Mid R : List α, L.length = N → R.length = N →
      reverse_helper N f (L ++ Mid ++ R) = f (R.reverse ++ Mid ++ L.reverse) := by
  induction N with
  | zero =>
    intro L Mid R hL hR
    have hL0 : L = [] := List.length_eq_zero.mp hL
    have hR0 : R = [] := List.length_eq_zero.mp hR
    subst hL0; subst hR0
    simp [reverse_helper, id]
  | succ N ih =>
    intro L Mid R hL hR
    have hLne : L ≠ [] := by intro h; rw [h] at hL; simp at hL
    obtain ⟨L', a, rfl⟩ : ∃ L' a, L = L' ++ [a] :=
      ⟨L.dropLast, L.getLast hLne, (List.dropLast_append_getLast hLne).symm⟩
    obtain ⟨b, R', rfl⟩ : ∃ b R', R = b :: R' := by
      cases R with
      | nil => simp at hR
      | cons b R' => exact ⟨b, R', rfl⟩
    have hL' : L'.length = N := by simpa using hL
    have hR' : R'.length = N := by simpa using hR
    have hxs : L' ++ [a] ++ Mid ++ b :: R' = L' ++ a :: (Mid ++ b :: R') := by simp
    have hlen : (L' ++ a :: (Mid ++ b :: R')).length = N + N + Mid.length + 2 := by
      simp only [List.length_append, List.length_cons, hL', hR']; omega
    rw [hxs, reverse_helper_succ f N _ (by omega)]
    have hsw := (swap_split (reverse_helper N f) (((N + 1 : Nat) : Int) - 1)
      (-((N + 1 : Nat) : Int)) L' Mid R' a b
      (by rw [hlen]; push_cast; omega) (by rw [hlen]; push_cast; omega)
      (by
        rw [hlen, hL']; push_cast
        have e : ((N : Int) + 1 - 1 + (N + N + Mid.length + 2))
            = N + 1 * (N + N + Mid.length + 2) := by ring
        rw [e, Int.add_mul_emod_self]
        exact Int.emod_eq_of_lt (by omega) (by omega))
      (by
        rw [hlen, hL']; push_cast
        have e : (-((N : Int) + 1) + (N + N + Mid.length + 2)) = N + 1 + Mid.length := by
          ring
        rw [e]
        exact Int.emod_eq_of_lt (by omega) (by omega))).1
    rw [hsw]
    have hys : L' ++ b :: (Mid ++ a :: R') = L' ++ (b :: (Mid ++ [a])) ++ R' := by simp
    rw [hys, ih L' (b :: (Mid ++ [a])) R' hL' hR']
    simp

/-- The outcome of `reverse` on every pack. -/
theorem reverse_eq (f : Continuation α ρ) (xs : List α) : reverse f xs = f xs.reverse := by
  have hsplit : xs = xs.take (xs.length / 2)
      ++ (xs.drop (xs.length / 2)).take (xs.length - 2 * (xs.length / 2))
      ++ (xs.drop (xs.length / 2)).drop (xs.length - 2 * (xs.length / 2)) := by
    rw [List.append_assoc, List.take_append_drop, List.take_append_drop]
  have hL : (xs.take (xs.length / 2)).length = xs.length / 2 := by
    rw [List.length_take]; omega
  have hR : ((xs.drop (xs.length / 2)).drop (xs.length - 2 * (xs.length / 2))).length
      = xs.length / 2 := by
    rw [List.length_drop, List.length_drop]; omega
  have hMid : ((xs.drop (xs.length / 2)).take (xs.length - 2 * (xs.length / 2))).length
      ≤ 1 := by
    rw [List.length_take, List.length_drop]; omega
  have hMidrev : ∀ Mid : List α, Mid.length ≤ 1 → Mid.reverse = Mid := by
    intro Mid h
    match Mid, h with
    | [], _ => rfl
    | [_], _ => rfl
  obtain ⟨L, Mid, R, hxs, hL', hR', hMid'⟩ : ∃ L Mid R : List α,
      xs = L ++ Mid ++ R ∧ L.length = xs.length / 2 ∧ R.length = xs.length / 2
        ∧ Mid.length ≤ 1 := ⟨_, _, _, hsplit, hL, hR, hMid⟩
  have hrun := reverse_helper_split f (xs.length / 2) L Mid R hL' hR'
  rw [← hxs] at hrun
  show reverse_helper (xs.length / 2) f xs = f xs.reverse
  rw [hrun]
  congr 1
  rw [hxs, List.reverse_append, List.reverse_append, hMidrev Mid hMid', List.append_assoc]

/-- The recursion of `cycle<First, Rest...>` unrolled: one `swap<First, P>` per remaining position. -/
theorem cycle_from_eq (First : Int) (Rest : List Int) :
    ∀ (f : Continuation α ρ) (xs : List α),
      cycle_from First Rest f xs
        = compose (Rest.map fun P => swap First P) f xs := by
  induction Rest with
  | nil => intro f xs; rfl
  | cons Second Rest ih =>
    intro f xs
    have h1 : compose_helper_f f [cycle_from First Rest]
        = compose_helper_f f (Rest.map fun P => swap First P) := by
      funext args
      exact ih f args
    show swap First Second (compose_helper_f f [cycle_from First Rest]) xs
      = swap First Second (compose_helper_f f (Rest.map fun P => swap First P)) xs
    rw [h1]

/-- With `1 ≤ n < 2^63` arguments the two conjuncts of the first bounds check of
`slice<N, M>` cannot both hold, whatever `N` is: the check compares in `std::size_t`. -/
theorem slice_rejected (f : Continuation α ρ) (N M : Int) (xs : List α)
    (hlen : 1 ≤ xs.length ∧ xs.length < 2 ^ 63) :
    slice N M f xs = Outcome.rejected := by
  have hcheck : ¬ (negSizeT xs.length ≤ toSizeT N ∧ toSizeT N ≤ xs.length) := by
    simp only [negSizeT, toSizeT, SIZE_BITS]
    norm_num
    omega
  simp only [slice, hcheck, not_false_eq_true, if_true]

/-- A transposition fixes every position other than its two. -/
theorem transpose_other (a b j : Nat) (ha : j ≠ a) (hb : j ≠ b) : transpose a b j = j := by
  simp [transpose, ha, hb]

/-- The pack that `swap<N, M>` passes on, position by position. -/
theorem swap_pointwise (N M : Int) (xs : List α)
    (hN : -(xs.length : Int) ≤ N ∧ N < xs.length)
    (hM : -(xs.length : Int) ≤ M ∧ M < xs.length) :
    ∃ ys : List α,
      (∀ f : Continuation α ρ, swap N M f xs = f ys) ∧ ys.length = xs.length ∧
      ∀ j : Nat,
        ys[j]? = xs[transpose (normalise xs.length N) (normalise xs.length M) j]? := by
  obtain ⟨_, _, hAi, hAn⟩ := normalize_bounds N xs.length hN
  obtain ⟨_, _, hBi, hBn⟩ := normalize_bounds M xs.length hM
  simp only [normalise]
  generalize hi : ((N + xs.length) % xs.length).toNat = i at hAi hAn ⊢
  generalize hj : ((M + xs.length) % xs.length).toNat = k at hBi hBn ⊢
  rcases Nat.lt_trichotomy i k with hlt | heq | hgt
  · obtain ⟨L, Mid, R, a, b, rfl, hL, hMid⟩ := split_at_two xs i k hlt hBn
    obtain ⟨e1, e2, e3, e4, e5, e6⟩ := exchange_getElem L Mid R a b
    refine ⟨L ++ b :: (Mid ++ a :: R), ?_, e1, ?_⟩
    · intro f
      exact (swap_split f N M L Mid R a b hN hM (by rw [← hAi, hL])
        (by rw [← hBi, ← hMid]; push_cast; ring)).1
    · intro j
      by_cases h1 : j = i
      · rw [h1, show transpose i k i = k by simp [transpose], ← hL, ← hMid, e2, e5]
      · by_cases h2 : j = k
        · rw [h2, show transpose i k k = i by simp [transpose], ← hL, ← hMid, e4, e3]
        · rw [transpose_other i k j h1 h2]
          exact e6 j (by omega) (by omega)
  · subst heq
    refine ⟨xs, ?_, rfl, ?_⟩
    · intro f
      exact swap_same f N M xs hN hM (by rw [← hAi, ← hBi])
    · intro j
      have : transpose i i j = j := by
        unfold transpose; split <;> simp_all
      rw [this]
  · obtain ⟨L, Mid, R, a, b, rfl, hL, hMid⟩ := split_at_two xs k i hgt hAn
    obtain ⟨e1, e2, e3, e4, e5, e6⟩ := exchange_getElem L Mid R a b
    refine ⟨L ++ b :: (Mid ++ a :: R), ?_, e1, ?_⟩
    · intro f
      exact (swap_split f M N L Mid R a b hM hN (by rw [← hBi, hL])
        (by rw [← hAi, ← hMid]; push_cast; ring)).2
    · intro j
      by_cases h1 : j = i
      · rw [h1, show transpose i k i = k by simp [transpose], ← hL, ← hMid, e4, e3]
      · by_cases h2 : j = k
        · rw [h2, show transpose i k k = i by simp [transpose], ← hL, ← hMid, e2, e5]
        · rw [transpose_other i k j h1 h2]
          exact e6 j (by omega) (by omega)

/-- The pack that `cycle<First, Rest...>` passes on, position by position. -/
theorem cycle_from_pointwise (First : Int) (Rest : List Int) :
    ∀ xs : List α, (-(xs.length : Int) ≤ First ∧ First < xs.length) →
      (∀ P ∈ Rest, -(xs.length : Int) ≤ P ∧ P < xs.length) →
      ∃ ys : List α,
        (∀ f : Continuation α ρ, cycle_from First Rest f xs = f ys) ∧
        ys.length = xs.length ∧
        ∀ j : Nat,
          ys[j]? = xs[cycle_source (normalise xs.length First)
            (Rest.map (normalise xs.length)) j]? := by
  induction Rest with
  | nil =>
    intro xs _ _
    exact ⟨xs, fun f => rfl, rfl, fun j => rfl⟩
  | cons Second Rest ih =>
    intro xs hFirst hRest
    obtain ⟨mid, hswap, hlen, hmid⟩ :=
      @swap_pointwise α ρ First Second xs hFirst (hRest Second (by simp))
    obtain ⟨ys, hcycle, hlen', hys⟩ := ih mid (by rw [hlen]; exact hFirst)
      (fun P hP => by rw [hlen]; exact hRest P (by simp [hP]))
    refine ⟨ys, ?_, by rw [hlen', hlen], ?_⟩
    · intro f
      show swap First Second (compose_helper_f f [cycle_from First Rest]) xs = f ys
      rw [hswap]
      exact hcycle f
    · intro j
      rw [hys j, hmid, hlen]
      rfl

/-- Exchanging with positions none of which is `j` leaves `j` in place. -/
theorem cycle_source_other (first : Nat) (others : List Nat) (j : Nat) (hfirst : j ≠ first)
    (hothers : j ∉ others) : cycle_source first others j = j := by
  induction others with
  | nil => rfl
  | cons other others ih =>
    rw [cycle_source, ih (fun h => hothers (List.mem_cons_of_mem _ h))]
    exact transpose_other first other j hfirst (fun h => hothers (h ▸ List.mem_cons_self _ _))

/-- The first position receives the element of the final position. -/
theorem cycle_source_first (first : Nat) (others : List Nat) :
    (first :: others).Nodup → ∀ final : Nat, (first :: others).getLast? = some final →
      cycle_source first others first = final := by
  induction others with
  | nil =>
    intro _ final hfinal
    simpa using hfinal
  | cons other others ih =>
    intro hnodup final hfinal
    have hsub : (first :: others).Nodup := by
      rw [List.nodup_cons] at hnodup ⊢
      exact ⟨fun h => hnodup.1 (List.mem_cons_of_mem _ h), (List.nodup_cons.mp hnodup.2).2⟩
    have hne : first ≠ other := by
      intro h
      exact (List.nodup_cons.mp hnodup).1 (h ▸ List.mem_cons_self _ _)
    rw [cycle_source]
    cases others with
    | nil =>
      have hfin : final = other := by simpa using hfinal.symm
      rw [hfin]
      simp [cycle_source, transpose]
    | cons next others =>
      have hfinal' : (first :: next :: others).getLast? = some final := by
        simpa [List.getLast?_cons_cons] using hfinal
      rw [ih hsub final hfinal']
      have hmem : final ∈ next :: others := by
        apply List.mem_of_getLast?_eq_some
        simpa [List.getLast?_cons_cons] using hfinal
      have h1 : final ≠ first := by
        intro h
        exact (List.nodup_cons.mp hsub).1 (h ▸ hmem)
      have h2 : final ≠ other := by
        intro h
        exact (List.nodup_cons.mp (List.nodup_cons.mp hnodup).2).1 (h ▸ hmem)
      exact transpose_other first other final h1 h2

/-- Each listed position receives the element of the position listed before it. -/
theorem cycle_source_next (first : Nat) (others : List Nat) :
    (first :: others).Nodup → ∀ (i a b : Nat), (first :: others)[i]? = some a →
      (first :: others)[i + 1]? = some b → cycle_source first others b = a := by
  induction others with
  | nil =>
    intro _ i a b _ hb
    simp at hb
  | cons other others ih =>
    intro hnodup i a b ha hb
    have hsub : (first :: others).Nodup := by
      rw [List.nodup_cons] at hnodup ⊢
      exact ⟨fun h => hnodup.1 (List.mem_cons_of_mem _ h), (List.nodup_cons.mp hnodup.2).2⟩
    have hne : other ≠ first := by
      intro h
      exact (List.nodup_cons.mp hnodup).1 (h ▸ List.mem_cons_self _ _)
    have hother : other ∉ others := (List.nodup_cons.mp (List.nodup_cons.mp hnodup).2).1
    have hfirst : first ∉ others := (List.nodup_cons.mp hsub).1
    rw [cycle_source]
    match i, ha, hb with
    | 0, ha, hb =>
      have ha' : a = first := by simpa using ha.symm
      have hb' : b = other := by simpa using hb.symm
      rw [ha', hb', cycle_source_other first others other hne hother]
      simp [transpose]
    | 1, ha, hb =>
      have ha' : a = other := by simpa using ha.symm
      have hb0 : (first :: others)[0 + 1]? = some b := by simpa using hb
      rw [ih hsub 0 first b (by simp) hb0, ha']
      simp [transpose]
    | m + 2, ha, hb =>
      have ha0 : (first :: others)[m + 1]? = some a := by simpa using ha
      have hb0 : (first :: others)[m + 1 + 1]? = some b := by simpa using hb
      rw [ih hsub (m + 1) a b ha0 hb0]
      have hmem : a ∈ others := List.getElem?_mem (by simpa using ha0)
      exact transpose_other first other a (fun h => hfirst (h ▸ hmem))
        (fun h => hother (h ▸ hmem))

end positions

section consumed

variable {α ρ : Type}

/-- No call of `filter_helper` is well-formed, whatever has passed so far. -/
theorem filter_helper_rejected (Predicate : α → Bool) (f : Continuation α ρ)
    (passed xs : List α) : filter_helper Predicate passed f xs = Outcome.rejected := by
  cases xs with
  | nil => simp [filter_helper, next_has_passed_well_formed]
  | cons next rest => simp [filter_helper, next_has_passed, next_has_passed_well_formed]

/-- No call of `filter<Predicate>` is well-formed. -/
theorem filter_rejected (Predicate : α → Bool) (f : Continuation α ρ) (xs : List α) :
    filter Predicate f xs = Outcome.rejected :=
  filter_helper_rejected Predicate f [] xs

/-- The body of `adjacent_map_f<N, Function>::operator()` as the source writes it, with
`*this` as the continuation of `forward_if`. -/
theorem adjacent_map_f_cons (N : Nat) (mF : Continuation α (Calls α)) (first : α)
    (args : List α) :
    adjacent_map_f N mF (first :: args)
      = andThen (take N mF (first :: args))
          (forward_if (decide (args.length ≥ N)) (adjacent_map_f N mF) args) := by
  simp [adjacent_map_f, forward_if, id]

/-- The windows of `N` consecutive elements of a pack, from the left. -/
theorem windows_cons (N : Nat) (first : α) (args : List α) (h : N ≤ args.length) :
    (List.range ((first :: args).length - N + 1)).map
        (fun i => ((first :: args).drop i).take N)
      = (first :: args).take N
          :: (List.range (args.length - N + 1)).map (fun i => (args.drop i).take N) := by
  have hlen : (first :: args).length - N + 1 = (args.length - N + 1) + 1 := by
    simp only [List.length_cons]; omega
  rw [hlen, List.range_succ_eq_map, List.map_cons, List.map_map]
  rfl

/-- With at least `N ≥ 1` arguments `adjacent_map_f<N>` calls `mF` on each window. -/
theorem adjacent_map_f_eq (N : Nat) (hN : 1 ≤ N) :
    ∀ xs : List α, N ≤ xs.length →
      adjacent_map_f N observe xs
        = Outcome.returned
            ((List.range (xs.length - N + 1)).map (fun i => (xs.drop i).take N)) := by
  intro xs
  induction xs with
  | nil => intro h; simp at h; omega
  | cons first args ih =>
    intro h
    have htake : take N observe (first :: args) = Outcome.returned [(first :: args).take N] :=
      take_eq observe N (first :: args) hN h
    rw [adjacent_map_f_cons, htake]
    by_cases hrest : N ≤ args.length
    · have hcond : decide (args.length ≥ N) = true := by simpa using hrest
      rw [hcond]
      simp only [forward_if, id, if_true]
      rw [ih hrest, windows_cons N first args hrest]
      rfl
    · have hcond : decide (args.length ≥ N) = false := by simpa using hrest
      have hall : (first :: args).length - N + 1 = 1 := by
        simp only [List.length_cons] at h ⊢; omega
      rw [hcond, hall]
      simp [forward_if, andThen, callsOf, List.range_succ]

/-- With fewer than `N` arguments `adjacent_map_f<N>` is ill-formed: there is no
`operator()` for the empty pack, and `take<N>` asserts `N <= sizeof...(args)`. -/
theorem adjacent_map_f_short (N : Nat) (mF : Continuation α (Calls α)) (xs : List α)
    (h : xs.length < N) : adjacent_map_f N mF xs = Outcome.rejected := by
  cases xs with
  | nil => rfl
  | cons first args =>
    obtain ⟨k, rfl⟩ : ∃ k, N = k + 1 := ⟨N - 1, by omega⟩
    have htake : take (k + 1) mF (first :: args) = Outcome.rejected := by
      rw [take, if_neg (by omega)]
    rw [adjacent_map_f_cons, htake]
    simp [andThen]

/-- A call of `foldl_f` made inside the class is the left fold of `mF`. -/
theorem foldl_f_self_eq (mF : α → α → α) (xs : List α) :
    ∀ first : α, foldl_f_self mF first xs = List.foldl mF first xs := by
  induction xs with
  | nil => intro first; rfl
  | cons second args ih => intro first; exact ih (mF first second)

/-- On a pack with an even number of arguments `last` ends in a call without arguments,
for which it has no overload. -/
theorem last_even : ∀ xs : List α, xs.length % 2 = 0 → last xs = Outcome.rejected
  | [], _ => rfl
  | [_], h => by simp at h
  | _ :: _ :: rest, h => by
    rw [last]
    exact last_even rest (by simp only [List.length_cons] at h; omega)

/-- On a pack with an odd number of arguments `last` returns the final one. -/
theorem last_odd : ∀ xs : List α, xs.length % 2 = 1 →
    ∃ x : α, last xs = Outcome.returned x ∧ xs.getLast? = some x
  | [], h => by simp at h
  | [arg], _ => ⟨arg, rfl, rfl⟩
  | a :: b :: rest, h => by
    obtain ⟨x, hx, hlast⟩ := last_odd rest (by simp only [List.length_cons] at h; omega)
    refine ⟨x, by rw [last]; exact hx, ?_⟩
    cases rest with
    | nil => simp at hlast
    | cons c rest => simpa [List.getLast?_cons_cons] using hlast

/-- The outcome of `at_helper<N>::get` on a pack of more than `N` arguments. -/
theorem at_helper_eq : ∀ (N : Nat) (xs : List α) (h : N < xs.length),
    at_helper N xs = Outcome.returned (xs.get ⟨N, h⟩)
  | 0, x :: _, _ => rfl
  | N + 1, _ :: args, h => by
    rw [at_helper]
    exact at_helper_eq N args (by simpa using h)

/-- Past its bounds check `at<N>` returns the element at the normalised position. -/
theorem at_eq (N : Int) (xs : List α) (hN : -(xs.length : Int) ≤ N ∧ N < xs.length) :
    ∃ x : α, at_ N xs = Outcome.returned x ∧
      xs[((N + xs.length) % xs.length).toNat]? = some x := by
  obtain ⟨_, _, _, hlt⟩ := normalize_bounds N xs.length hN
  refine ⟨xs.get ⟨_, hlt⟩, ?_, ?_⟩
  · simp only [at_, hN, and_self, not_true_eq_false, if_false]
    exact at_helper_eq _ xs hlt
  · rw [List.getElem?_eq_getElem hlt]
    rfl

/-- The outcome of `all_of_f` on every pack. -/
theorem all_of_f_eq (mF : α → Bool) (xs : List α) : all_of_f mF xs = xs.all mF := by
  induction xs with
  | nil => rfl
  | cons first args ih =>
    rw [all_of_f, ih, List.all_cons]
    cases mF first <;> simp

/-- The outcome of `any_of_f` on every pack. -/
theorem any_of_f_eq (mF : α → Bool) (xs : List α) : any_of_f mF xs = xs.any mF := by
  induction xs with
  | nil => rfl
  | cons first args ih =>
    rw [any_of_f, ih, List.any_cons]
    cases mF first <;> simp

/-- The outcome of `none_of_f` on every pack. -/
theorem none_of_f_eq (mF : α → Bool) (xs : List α) : none_of_f mF xs = !(any_of_f mF xs) := by
  induction xs with
  | nil => rfl
  | cons first args ih =>
    rw [none_of_f, any_of_f, ih]
    cases mF first <;> simp

/-- The value of `is_unique<M, Ns...>`: `M` is not among `Ns`, which are distinct. -/
theorem is_unique_from_iff (Ns : List Int) :
    ∀ M : Int, is_unique_from M Ns = true ↔ (M ∉ Ns ∧ Ns.Nodup) := by
  induction Ns with
  | nil => intro M; simp [is_unique_from]
  | cons N Ns ih =>
    intro M
    simp only [is_unique_from, Bool.and_eq_true, bne_iff_ne, ne_eq, ih, List.mem_cons,
      not_or, List.nodup_cons]
    tauto

/-- The calls of a logged predicate made by `all_of_f`, and its value. -/
theorem all_of_f_in_logged (p : α → Bool) (xs : List α) :
    ∀ log : List α,
      all_of_f_in (logged p) xs log
        = (all_of_f p xs, log ++ (xs.takeWhile p ++ (xs.dropWhile p).take 1)) := by
  induction xs with
  | nil => intro log; simp [all_of_f_in, all_of_f]
  | cons first args ih =>
    intro log
    by_cases h : p first = true
    · simp only [all_of_f_in, logged, h, if_true, all_of_f, List.takeWhile_cons_of_pos,
        List.dropWhile_cons_of_pos]
      rw [ih]
      simp
    · simp [all_of_f_in, logged, h, all_of_f, List.takeWhile_cons_of_neg,
        List.dropWhile_cons_of_neg]

end consumed

section claims

variable {α ρ : Type}

/-- C1: for a pack of length `n` and indices `-n ≤ N < n`, `-n ≤ M < n`, `swap<N, M>`
invokes the continuation once, with a pack of the same length in which the elements at
the normalised positions `A = (N + n) mod n` and `B = (M + n) mod n` are exchanged and
every other element keeps its position; the pack is passed unchanged when `A = B`. -/
theorem swap_exchanges_positions (N M : Int) (xs : List α)
    (hN : -(xs.length : Int) ≤ N ∧ N < xs.length)
    (hM : -(xs.length : Int) ≤ M ∧ M < xs.length) :
    ∃ ys : List α,
      (∀ f : Continuation α ρ, swap N M f xs = f ys) ∧
      ys.length = xs.length ∧
      ((N + xs.length) % xs.length).toNat < xs.length ∧
      ((M + xs.length) % xs.length).toNat < xs.length ∧
      ys[((N + xs.length) % xs.length).toNat]? = xs[((M + xs.length) % xs.length).toNat]? ∧
      ys[((M + xs.length) % xs.length).toNat]? = xs[((N + xs.length) % xs.length).toNat]? ∧
      (∀ i : Nat, i ≠ ((N + xs.length) % xs.length).toNat →
        i ≠ ((M + xs.length) % xs.length).toNat → ys[i]? = xs[i]?) ∧
      (((N + xs.length) % xs.length).toNat = ((M + xs.length) % xs.length).toNat →
        ys = xs) := by
  obtain ⟨_, _, hAi, hAn⟩ := normalize_bounds N xs.length hN
  obtain ⟨_, _, hBi, hBn⟩ := normalize_bounds M xs.length hM
  generalize hi : ((N + xs.length) % xs.length).toNat = i at hAi hAn ⊢
  generalize hj : ((M + xs.length) % xs.length).toNat = j at hBi hBn ⊢
  rcases Nat.lt_trichotomy i j with hlt | heq | hgt
  · obtain ⟨L, Mid, R, a, b, rfl, hL, hMid⟩ := split_at_two xs i j hlt hBn
    obtain ⟨e1, e2, e3, e4, e5, e6⟩ := exchange_getElem L Mid R a b
    refine ⟨L ++ b :: (Mid ++ a :: R), ?_, e1, hAn, hBn, ?_, ?_, ?_, ?_⟩
    · intro f
      exact (swap_split f N M L Mid R a b hN hM (by rw [← hAi, hL])
        (by rw [← hBi, ← hMid]; push_cast; ring)).1
    · rw [← hL, ← hMid, e2, e5]
    · rw [← hL, ← hMid, e4, e3]
    · intro k hk1 hk2
      exact e6 k (by omega) (by omega)
    · intro h; omega
  · subst heq
    refine ⟨xs, ?_, rfl, hAn, hBn, rfl, rfl, fun _ _ _ => rfl, fun _ => rfl⟩
    intro f
    exact swap_same f N M xs hN hM (by rw [← hAi, ← hBi])
  · obtain ⟨L, Mid, R, a, b, rfl, hL, hMid⟩ := split_at_two xs j i hgt hAn
    obtain ⟨e1, e2, e3, e4, e5, e6⟩ := exchange_getElem L Mid R a b
    refine ⟨L ++ b :: (Mid ++ a :: R), ?_, e1, hAn, hBn, ?_, ?_, ?_, ?_⟩
    · intro f
      exact (swap_split f M N L Mid R a b hM hN (by rw [← hBi, hL])
        (by rw [← hAi, ← hMid]; push_cast; ring)).2
    · rw [← hL, ← hMid, e4, e3]
    · rw [← hL, ← hMid, e2, e5]
    · intro k hk1 hk2
      exact e6 k (by omega) (by omega)
    · intro h; omega

/-- Witness for C1: `swap<-1, 1>` on `[10, 20, 30, 40]`, positions `3` and `1`. -/
theorem swap_exchanges_positions_witness :
    (-(([10, 20, 30, 40] : List Nat).length : Int) ≤ -1 ∧
      (-1 : Int) < ([10, 20, 30, 40] : List Nat).length) ∧
    ∃ ys : List Nat,
      (∀ f : Continuation Nat Nat, swap (-1) 1 f [10, 20, 30, 40] = f ys) ∧
      ys.length = 4 ∧ 3 < 4 ∧ 1 < 4 ∧
      ys[3]? = [10, 20, 30, 40][1]? ∧ ys[1]? = [10, 20, 30, 40][3]? ∧
      (∀ i : Nat, i ≠ 3 → i ≠ 1 → ys[i]? = [10, 20, 30, 40][i]?) ∧
      (3 = 1 → ys = [10, 20, 30, 40]) :=
  ⟨by decide, swap_exchanges_positions (-1) 1 [10, 20, 30, 40] (by decide) (by decide)⟩

/-- C2: on a pack of any length `n`, `reverse` invokes the continuation once, with the
pack in reversed order: the element passed at position `i` is the input element at
position `n - 1 - i`. -/
theorem reverse_reverses (xs : List α) :
    ∃ ys : List α,
      (∀ f : Continuation α ρ, reverse f xs = f ys) ∧
      ys.length = xs.length ∧
      ∀ i : Nat, i < xs.length → ys[i]? = xs[xs.length - 1 - i]? := by
  refine ⟨xs.reverse, fun f => reverse_eq f xs, List.length_reverse xs, ?_⟩
  intro i hi
  exact List.getElem?_reverse hi

/-- C3, the claim as stated fails: on `[1, 2, 3]`, `cycle<0, 1, 2>` passes `[3, 1, 2]`,
whereas `swap<0, 1>` followed by `swap<1, 2>` passes `[2, 3, 1]`. -/
theorem cycle_not_chained_swaps :
    cycle [0, 1, 2] capture [1, 2, 3] = Outcome.returned [3, 1, 2] ∧
    compose [swap 0 1, swap 1 2] capture [1, 2, 3] = Outcome.returned [2, 3, 1] ∧
    cycle [0, 1, 2] capture [1, 2, 3] ≠ compose [swap 0 1, swap 1 2] capture [1, 2, 3] := by
  decide

/-- C3, amended: `cycle<P0, P1, ..., Pk>` passes to the continuation what
`swap<P0, P1>`, then `swap<P0, P2>`, ..., then `swap<P0, Pk>`, applied in that order,
pass; `cycle<>` forwards the pack; and `cycle<0, 1, 2>` on `[a, b, c]` invokes the
continuation with `[c, a, b]`. -/
theorem cycle_is_swaps_with_first (f : Continuation α ρ) :
    (∀ (P0 : Int) (Ps : List Int) (xs : List α),
      cycle (P0 :: Ps) f xs = compose (Ps.map fun P => swap P0 P) f xs) ∧
    (∀ xs : List α, cycle [] f xs = f xs) ∧
    (∀ a b c : α, cycle [0, 1, 2] f [a, b, c] = f [c, a, b]) := by
  refine ⟨fun P0 Ps xs => cycle_from_eq P0 Ps f xs, fun xs => rfl, fun a b c => ?_⟩
  simp [cycle, cycle_from, compose, compose_helper_f, swap, swap_helper, shift, shift_tail,
    left_shift, right_shift, left_shift_tail, right_shift_tail, flip, id]

/-- The call `slice<1, 3>` on `[10, 20, 30, 40]`: the first bounds check fails, so
the call is ill-formed; and the body `m_slice<1, 3>` that the checks guard passes
`[40, 10]`, not the elements `[20, 30]` at positions `1` and `2`. -/
theorem slice_one_three_diverges :
    slice 1 3 capture [10, 20, 30, 40] = Outcome.rejected ∧
    ¬ (negSizeT [10, 20, 30, 40].length ≤ toSizeT 1) ∧
    m_slice 1 3 capture [10, 20, 30, 40] = Outcome.returned [40, 10] ∧
    ([10, 20, 30, 40].drop 1).take (3 - 1) = [20, 30] := by
  decide

/-- C5, the code at `slice<0, 3>` on `[10, 20, 30]`: the first bounds check fails, so the
call is ill-formed; the upper index `3` normalises to `0`, and the body `m_slice<0, 0>`
reached with it passes the empty pack; on the empty pack `slice<0, 0>` is ill-formed
too. -/
theorem slice_zero_length_diverges :
    slice 0 3 capture [10, 20, 30] = Outcome.rejected ∧
    addSizeT (toSizeT 3) [10, 20, 30].length % [10, 20, 30].length = 0 ∧
    m_slice 0 0 capture [10, 20, 30] = Outcome.returned [] ∧
    slice 0 0 capture ([] : List Nat) = Outcome.rejected := by
  decide

/-- C6: for `0 ≤ N < n` (and `N = 0` on the empty pack) `left_shift<N>` invokes the
continuation once with `[xN, ..., x(n-1), x0, ..., x(N-1)]`; `left_shift<0>` forwards
the pack unchanged. -/
theorem left_shift_rotates (N : Nat) (xs : List α)
    (h : N < xs.length ∨ (xs.length = 0 ∧ N = 0)) :
    (∀ f : Continuation α ρ, left_shift N f xs = f (xs.drop N ++ xs.take N)) ∧
    (∀ f : Continuation α ρ, left_shift 0 f xs = f xs) := by
  refine ⟨fun f => left_shift_eq f N xs ?_, fun f => rfl⟩
  rcases h with h | ⟨_, h⟩
  · exact Or.inr h
  · exact Or.inl h

/-- Witness for C6: `left_shift<1>` on `[1, 2, 3, 4]` passes `[2, 3, 4, 1]`. -/
theorem left_shift_rotates_witness :
    (1 < [1, 2, 3, 4].length ∨ ([1, 2, 3, 4].length = 0 ∧ 1 = 0)) ∧
    (∀ f : Continuation Nat Nat, left_shift 1 f [1, 2, 3, 4] = f [2, 3, 4, 1]) ∧
    (∀ f : Continuation Nat Nat, left_shift 0 f [1, 2, 3, 4] = f [1, 2, 3, 4]) :=
  ⟨by decide, left_shift_rotates 1 [1, 2, 3, 4] (by decide)⟩

/-- C7: when `left_shift<N>` and `right_shift<N>` both accept the pack, their
composition, `left_shift<N>` first, invokes the continuation with the pack unchanged. -/
theorem left_then_right_shift_roundtrip (N : Nat) (xs : List α)
    (hl : left_shift N capture xs ≠ Outcome.rejected)
    (hr : right_shift N capture xs ≠ Outcome.rejected) :
    ∀ f : Continuation α ρ, compose [left_shift N, right_shift N] f xs = f xs := by
  intro f
  have hN : N = 0 ∨ N < xs.length := by
    by_contra hcon
    exact hl (left_shift_rejected capture N xs hcon)
  have hlen : (xs.take N).length = N := by
    rw [List.length_take]
    rcases hN with h | h <;> omega
  have hcase : xs.take N = [] ∨ xs.drop N ≠ [] := by
    rcases hN with h | h
    · left; subst h; rfl
    · right
      intro hnil
      have := congrArg List.length hnil
      rw [List.length_drop] at this
      simp at this
      omega
  have hback := right_shift_append f (xs.drop N) (xs.take N) hcase
  rw [hlen, List.take_append_drop] at hback
  show compose_helper_f f [left_shift N, right_shift N] xs = f xs
  rw [compose_helper_f, left_shift_eq _ N xs hN, compose_helper_f]
  exact hback

/-- Witness for C7: `left_shift<2>` then `right_shift<2>` on `[1, 2, 3]`. -/
theorem left_then_right_shift_roundtrip_witness :
    (left_shift 2 capture [1, 2, 3] ≠ Outcome.rejected ∧
      right_shift 2 capture [1, 2, 3] ≠ Outcome.rejected) ∧
    ∀ f : Continuation Nat Nat,
      compose [left_shift 2, right_shift 2] f [1, 2, 3] = f [1, 2, 3] :=
  ⟨by decide, left_then_right_shift_roundtrip 2 [1, 2, 3] (by decide) (by decide)⟩

/-- C8: for `1 ≤ N ≤ n`, `take<N>` invokes the continuation once with the first `N`
elements of the pack, in order. -/
theorem take_forwards_first (N : Nat) (xs : List α) (h1 : 1 ≤ N) (h2 : N ≤ xs.length) :
    (∀ f : Continuation α ρ, take N f xs = f (xs.take N)) ∧
    (xs.take N).length = N ∧
    ∀ i : Nat, i < N → (xs.take N)[i]? = xs[i]? := by
  refine ⟨fun f => take_eq f N xs h1 h2, ?_, ?_⟩
  · rw [List.length_take]; omega
  · intro i hi
    rw [List.getElem?_take, if_pos hi]

/-- Witness for C8: `take<2>` on `[1, 2, 3, 4]`. -/
theorem take_forwards_first_witness :
    (1 ≤ 2 ∧ 2 ≤ [1, 2, 3, 4].length) ∧
    (∀ f : Continuation Nat Nat, take 2 f [1, 2, 3, 4] = f [1, 2]) ∧
    ([1, 2, 3, 4].take 2).length = 2 ∧
    ∀ i : Nat, i < 2 → ([1, 2, 3, 4].take 2)[i]? = [1, 2, 3, 4][i]? :=
  ⟨by decide, take_forwards_first 2 [1, 2, 3, 4] (by decide) (by decide)⟩

/-- C9, the claim as stated fails: on `[10, 20, 30]` with `N = 1`, `take<1>` forwards
`[10]` and `drop<3 - 1>` forwards `[30]`; the element `20` is in neither. -/
theorem take_drop_complement_misses :
    1 ≤ [10, 20, 30].length ∧
    forwarded (take 1 capture [10, 20, 30]) = [10] ∧
    forwarded (drop ([10, 20, 30].length - 1) capture [10, 20, 30]) = [30] ∧
    20 ∉ forwarded (take 1 capture [10, 20, 30])
      ++ forwarded (drop ([10, 20, 30].length - 1) capture [10, 20, 30]) := by
  decide

/-- C9, amended: for `N ≤ n`, `take<N>` and `drop<N>` are both well-formed on the pack,
and the elements forwarded by `take<N>` followed by the elements forwarded by `drop<N>`
are the pack itself: every element is covered once and none is in both (`take<0>`
forwards nothing). -/
theorem take_drop_partition (N : Nat) (xs : List α) (h : N ≤ xs.length) :
    take N capture xs ≠ Outcome.rejected ∧
    drop N capture xs ≠ Outcome.rejected ∧
    forwarded (take N capture xs) = xs.take N ∧
    forwarded (drop N capture xs) = xs.drop N ∧
    forwarded (take N capture xs) ++ forwarded (drop N capture xs) = xs := by
  have hd : drop N capture xs = Outcome.returned (xs.drop N) := drop_eq capture N xs h
  have ht : take N capture xs ≠ Outcome.rejected ∧
      forwarded (take N capture xs) = xs.take N := by
    rcases Nat.eq_zero_or_pos N with h0 | hpos
    · subst h0
      exact ⟨by simp [take], by simp [take, forwarded]⟩
    · have e : take N capture xs = Outcome.returned (xs.take N) := take_eq capture N xs hpos h
      rw [e]
      exact ⟨by simp, rfl⟩
  refine ⟨ht.1, ?_, ht.2, ?_, ?_⟩
  · rw [hd]; simp
  · rw [hd]; rfl
  · rw [ht.2, hd]
    exact List.take_append_drop N xs

/-- Witness for C9 as amended: `take<1>` and `drop<1>` on `[10, 20, 30]`. -/
theorem take_drop_partition_witness :
    1 ≤ [10, 20, 30].length ∧
    take 1 capture [10, 20, 30] ≠ Outcome.rejected ∧
    drop 1 capture [10, 20, 30] ≠ Outcome.rejected ∧
    forwarded (take 1 capture [10, 20, 30]) = [10] ∧
    forwarded (drop 1 capture [10, 20, 30]) = [20, 30] ∧
    forwarded (take 1 capture [10, 20, 30]) ++ forwarded (drop 1 capture [10, 20, 30])
      = [10, 20, 30] :=
  ⟨by decide, take_drop_partition 1 [10, 20, 30] (by decide)⟩

/-- C10: for `N ≤ n`, `drop<N>` invokes the continuation once with the elements at
positions `N, ..., n - 1`, in order (the empty pack when `N = n`); none of the first
`N` elements is forwarded. -/
theorem drop_forwards_suffix (N : Nat) (xs : List α) (h : N ≤ xs.length) :
    (∀ f : Continuation α ρ, drop N f xs = f (xs.drop N)) ∧
    (xs.drop N).length = xs.length - N ∧
    (∀ i : Nat, (xs.drop N)[i]? = xs[N + i]?) ∧
    (N = xs.length → xs.drop N = []) := by
  refine ⟨fun f => drop_eq f N xs h, List.length_drop N xs, ?_, ?_⟩
  · intro i
    exact List.getElem?_drop xs N i
  · intro hN
    rw [hN]
    exact List.drop_length xs

/-- Witness for C10: `drop<2>` on `[1, 2, 3]`. -/
theorem drop_forwards_suffix_witness :
    2 ≤ [1, 2, 3].length ∧
    (∀ f : Continuation Nat Nat, drop 2 f [1, 2, 3] = f [3]) ∧
    ([1, 2, 3].drop 2).length = [1, 2, 3].length - 2 ∧
    (∀ i : Nat, ([1, 2, 3].drop 2)[i]? = [1, 2, 3][2 + i]?) ∧
    (2 = [1, 2, 3].length → [1, 2, 3].drop 2 = []) :=
  ⟨by decide, drop_forwards_suffix 2 [1, 2, 3] (by decide)⟩

/-- C11, the code at `filter<Predicate>` on three arguments of which the first and the
third satisfy the predicate (an element is the predicate's value on the argument's type,
and the argument): the declaration of `next_has_passed` is ill-formed, so the call is
ill-formed, where the claim has the continuation invoked with the first and the third
argument. -/
theorem filter_call_ill_formed :
    next_has_passed_well_formed = false ∧
    filter (fun arg : Bool × Nat => arg.1) capture [(true, 1), (false, 2), (true, 3)]
      = Outcome.rejected ∧
    List.filter (fun arg : Bool × Nat => arg.1) [(true, 1), (false, 2), (true, 3)]
      = [(true, 1), (true, 3)] := by
  decide

/-- C12, the claim as stated fails on packs shorter than the window: `adjacent_map<2>(f)`
on `[1]` and `adjacent_map<1>(f)` on the empty pack are ill-formed, where the claim has
them make `max(0, L - N + 1) = 0` calls. -/
theorem adjacent_map_short_pack_rejected :
    adjacent_map 2 observe [1] = Outcome.rejected ∧
    adjacent_map 1 observe ([] : List Nat) = Outcome.rejected ∧
    adjacent_map 2 observe [1] ≠ Outcome.returned [] ∧
    adjacent_map 2 observe [1] ≠ Outcome.nothing := by
  decide

/-- C12, amended: for a window size `N ≥ 1` and a pack of length `L ≥ N`,
`adjacent_map<N>(f)` invokes `f` `L - N + 1` times, the `i`-th time with the `N`
consecutive elements at positions `i, ..., i + N - 1`; on `[a, b, c, d]`,
`adjacent_map<2>(f)` calls `f(a, b)`, `f(b, c)`, `f(c, d)`.  On a pack of length `L < N`
the call is ill-formed. -/
theorem adjacent_map_windows (N : Nat) (xs : List α) (hN : 1 ≤ N) :
    (N ≤ xs.length →
      ∃ calls : Calls α,
        adjacent_map N observe xs = Outcome.returned calls ∧
        calls.length = xs.length - N + 1 ∧
        ∀ i : Nat, i < xs.length - N + 1 →
          ∃ window : List α, calls[i]? = some window ∧ window.length = N ∧
            ∀ j : Nat, j < N → window[j]? = xs[i + j]?) ∧
    (xs.length < N → adjacent_map N observe xs = Outcome.rejected) ∧
    (∀ a b c d : α,
      adjacent_map 2 observe [a, b, c, d] = Outcome.returned [[a, b], [b, c], [c, d]]) := by
  refine ⟨fun h => ?_, fun h => adjacent_map_f_short N observe xs h, fun a b c d => ?_⟩
  · refine ⟨_, adjacent_map_f_eq N hN xs h, by simp, ?_⟩
    intro i hi
    refine ⟨(xs.drop i).take N, ?_, ?_, ?_⟩
    · rw [List.getElem?_map, List.getElem?_range hi]
      rfl
    · rw [List.length_take, List.length_drop]
      omega
    · intro j hj
      rw [List.getElem?_take, if_pos hj, List.getElem?_drop]
  · exact adjacent_map_f_eq 2 (by decide) [a, b, c, d] (by simp)

/-- Witness for C12 as amended: `adjacent_map<2>` on `[1, 2, 3, 4]`. -/
theorem adjacent_map_windows_witness :
    1 ≤ 2 ∧
    (2 ≤ [1, 2, 3, 4].length →
      ∃ calls : Calls Nat,
        adjacent_map 2 observe [1, 2, 3, 4] = Outcome.returned calls ∧
        calls.length = [1, 2, 3, 4].length - 2 + 1 ∧
        ∀ i : Nat, i < [1, 2, 3, 4].length - 2 + 1 →
          ∃ window : List Nat, calls[i]? = some window ∧ window.length = 2 ∧
            ∀ j : Nat, j < 2 → window[j]? = [1, 2, 3, 4][i + j]?) ∧
    ([1, 2, 3, 4].length < 2 → adjacent_map 2 observe [1, 2, 3, 4] = Outcome.rejected) ∧
    (∀ a b c d : Nat,
      adjacent_map 2 observe [a, b, c, d] = Outcome.returned [[a, b], [b, c], [c, d]]) :=
  ⟨by decide, adjacent_map_windows 2 [1, 2, 3, 4] (by decide)⟩

/-- C13, the claim as stated fails on a single element: called from outside the class,
`foldl(f)(5)` selects the private one-argument `operator()` and is ill-formed, where the
claim has it return `5`. -/
theorem foldl_single_rejected :
    foldl (fun a b : Nat => a + b) [5] = Outcome.rejected ∧
    foldl (fun a b : Nat => a + b) [5] ≠ Outcome.returned 5 := by
  decide

/-- C13, amended: for a pack `[x0, x1, ..., x(n-1)]` of at least two elements, `foldl(f)`
returns the left fold of `f` over `x1, ..., x(n-1)` from the accumulator `x0`, that is
`f(...f(f(x0, x1), x2)..., x(n-1))`; the one-argument `operator()`, which returns its
argument without calling `f`, is private, so it ends the recursion but a call of
`foldl(f)` on a single element is ill-formed. -/
theorem foldl_left_fold (f : α → α → α) :
    (∀ (x0 x1 : α) (xs : List α),
      foldl f (x0 :: x1 :: xs) = Outcome.returned (List.foldl f x0 (x1 :: xs))) ∧
    (∀ a b c d : α, foldl f [a, b, c, d] = Outcome.returned (f (f (f a b) c) d)) ∧
    (∀ x : α, foldl_f_self f x [] = x) ∧
    (∀ x : α, foldl f [x] = Outcome.rejected) := by
  refine ⟨fun x0 x1 xs => ?_, fun a b c d => rfl, fun x => rfl, fun x => rfl⟩
  show Outcome.returned (foldl_f_self f (f x0 x1) xs) = _
  rw [foldl_f_self_eq]
  rfl

/-- C14, the code at `last(1, 2)`: the overload for two or more arguments leaves out both
of its first two and calls `last()`, for which there is no overload, so the call is
ill-formed instead of returning `2`; the same on `[1, 2, 3, 4]`, while on `[1, 2, 3]` the
final element `3` is returned. -/
theorem last_two_rejected :
    last [1, 2] = Outcome.rejected ∧
    last [1, 2, 3, 4] = Outcome.rejected ∧
    last [1, 2, 3] = Outcome.returned 3 := by
  decide

/-- C15: for a pack of length `n ≥ 1` and `-n ≤ N < n`, `at<N>` returns the element at the
normalised position `(N + n) mod n`, which is position `N` when `N ≥ 0` and `n + N` when
`N < 0`; `at<0>` returns the first element and `at<-1>` the final one. -/
theorem at_returns_normalised (N : Int) (xs : List α) (hn : 1 ≤ xs.length)
    (hN : -(xs.length : Int) ≤ N ∧ N < xs.length) :
    ∃ x : α, at_ N xs = Outcome.returned x ∧
      xs[((N + xs.length) % xs.length).toNat]? = some x ∧
      (0 ≤ N → xs[N.toNat]? = some x) ∧
      (N < 0 → xs[(xs.length + N).toNat]? = some x) ∧
      (N = 0 → xs.head? = some x) ∧
      (N = -1 → xs.getLast? = some x) := by
  obtain ⟨x, hx, hpos⟩ := at_eq N xs hN
  have hnn : 0 ≤ N → (N + xs.length) % xs.length = N := by
    intro h0
    rw [Int.add_emod_self]
    exact Int.emod_eq_of_lt h0 hN.2
  have hneg : N < 0 → (N + xs.length) % xs.length = xs.length + N := by
    intro hlt
    rw [Int.add_comm]
    exact Int.emod_eq_of_lt (by omega) (by omega)
  refine ⟨x, hx, hpos, ?_, ?_, ?_, ?_⟩
  · intro h0
    rw [hnn h0] at hpos
    exact hpos
  · intro hlt
    rw [hneg hlt] at hpos
    exact hpos
  · intro h0
    rw [hnn (by omega), h0] at hpos
    rw [List.head?_eq_getElem?]
    exact hpos
  · intro h1
    rw [hneg (by omega), h1] at hpos
    rw [List.getLast?_eq_getElem?]
    have e : ((xs.length : Int) + -1).toNat = xs.length - 1 := by omega
    rw [e] at hpos
    exact hpos

/-- Witness for C15: `at<-1>` on `[10, 20, 30]` returns the element at position `2`. -/
theorem at_returns_normalised_witness :
    (1 ≤ [10, 20, 30].length ∧
      (-(([10, 20, 30] : List Nat).length : Int) ≤ -1 ∧
        (-1 : Int) < ([10, 20, 30] : List Nat).length)) ∧
    ∃ x : Nat, at_ (-1) [10, 20, 30] = Outcome.returned x ∧
      [10, 20, 30][2]? = some x ∧
      ((0 : Int) ≤ -1 → [10, 20, 30][(-1 : Int).toNat]? = some x) ∧
      ((-1 : Int) < 0 → [10, 20, 30][2]? = some x) ∧
      ((-1 : Int) = 0 → [10, 20, 30].head? = some x) ∧
      ((-1 : Int) = -1 → [10, 20, 30].getLast? = some x) :=
  ⟨by decide, at_returns_normalised (-1) [10, 20, 30] (by decide) (by decide)⟩

/-- C16: on a pack of length `n`, `at<N>` is rejected exactly when `N < -n` or `N ≥ n`; so
`at<3>` and `at<-4>` on three elements are rejected, and every `N` is on the empty
pack. -/
theorem at_rejected_iff_out_of_bounds (N : Int) (xs : List α) :
    (at_ N xs = Outcome.rejected ↔ (N < -(xs.length : Int) ∨ (xs.length : Int) ≤ N)) ∧
    (∀ a b c : α, at_ 3 [a, b, c] = Outcome.rejected ∧ at_ (-4) [a, b, c] = Outcome.rejected) ∧
    (∀ K : Int, at_ K ([] : List α) = Outcome.rejected) := by
  have hout : ∀ (K : Int) (ys : List α),
      (K < -(ys.length : Int) ∨ (ys.length : Int) ≤ K) → at_ K ys = Outcome.rejected := by
    intro K ys h
    have hcheck : ¬ (-(ys.length : Int) ≤ K ∧ K < ys.length) := by omega
    simp only [at_, hcheck, not_false_eq_true, if_true]
  refine ⟨⟨fun h => ?_, hout N xs⟩, fun a b c => ⟨hout 3 _ ?_, hout (-4) _ ?_⟩,
    fun K => hout K [] ?_⟩
  · by_contra hcon
    obtain ⟨x, hx, _⟩ := at_eq N xs (by omega)
    rw [hx] at h
    exact Outcome.noConfusion h
  · right; simp
  · left; simp
  · simp only [List.length_nil]; omega

/-- C17, the claim as stated fails at `N = n`: `left_shift<3>` on `[1, 2, 3]` does not pass
its bounds check `N < 1 + sizeof...(rest)`. -/
theorem left_shift_by_length_rejected :
    3 ≤ [1, 2, 3].length ∧ left_shift 3 capture [1, 2, 3] = Outcome.rejected := by
  decide

/-- C17, amended: on a pack of length `n`, `left_shift<N>` is accepted, and then invokes
the continuation, exactly when `N = 0` or `N < n`; it is rejected for every other `N`,
`N = n ≥ 1` included. -/
theorem left_shift_accepted_iff (N : Nat) (xs : List α) :
    (left_shift N capture xs ≠ Outcome.rejected ↔ (N = 0 ∨ N < xs.length)) ∧
    ((N = 0 ∨ N < xs.length) →
      ∀ f : Continuation α ρ, left_shift N f xs = f (xs.drop N ++ xs.take N)) ∧
    (¬ (N = 0 ∨ N < xs.length) →
      ∀ f : Continuation α ρ, left_shift N f xs = Outcome.rejected) := by
  refine ⟨⟨fun h => ?_, fun h => ?_⟩, fun h f => left_shift_eq f N xs h,
    fun h f => left_shift_rejected f N xs h⟩
  · by_contra hcon
    exact h (left_shift_rejected capture N xs hcon)
  · rw [left_shift_eq capture N xs h]
    exact fun hrej => Outcome.noConfusion hrej

/-- C18: for in-bounds `N`, `M`, `swap<N, M>` composed with itself invokes the
continuation with the pack unchanged. -/
theorem swap_twice_identity (N M : Int) (xs : List α)
    (hN : -(xs.length : Int) ≤ N ∧ N < xs.length)
    (hM : -(xs.length : Int) ≤ M ∧ M < xs.length) :
    ∀ f : Continuation α ρ, compose [swap N M, swap N M] f xs = f xs := by
  intro f
  obtain ⟨_, _, hAi, hAn⟩ := normalize_bounds N xs.length hN
  obtain ⟨_, _, hBi, hBn⟩ := normalize_bounds M xs.length hM
  show swap N M (compose_helper_f f [swap N M]) xs = f xs
  have hinner : ∀ ys : List α, compose_helper_f f [swap N M] ys = swap N M f ys := by
    intro ys; rfl
  generalize hi : ((N + xs.length) % xs.length).toNat = i at hAi hAn
  generalize hj : ((M + xs.length) % xs.length).toNat = j at hBi hBn
  rcases Nat.lt_trichotomy i j with hlt | heq | hgt
  · obtain ⟨L, Mid, R, a, b, rfl, hL, hMid⟩ := split_at_two xs i j hlt hBn
    have hlen : (L ++ b :: (Mid ++ a :: R)).length = (L ++ a :: (Mid ++ b :: R)).length := by
      simp
    have hA : (N + (L ++ a :: (Mid ++ b :: R)).length) % (L ++ a :: (Mid ++ b :: R)).length
        = L.length := by rw [← hAi, hL]
    have hB : (M + (L ++ a :: (Mid ++ b :: R)).length) % (L ++ a :: (Mid ++ b :: R)).length
        = (L.length : Int) + 1 + Mid.length := by rw [← hBi, ← hMid]; push_cast; ring
    rw [(swap_split _ N M L Mid R a b hN hM hA hB).1, hinner]
    exact (swap_split f N M L Mid R b a (by rw [hlen]; exact hN) (by rw [hlen]; exact hM)
      (by rw [hlen]; exact hA) (by rw [hlen]; exact hB)).1
  · subst heq
    have hsame : (N + xs.length) % xs.length = (M + xs.length) % xs.length := by
      rw [← hAi, ← hBi]
    rw [swap_same _ N M xs hN hM hsame, hinner, swap_same f N M xs hN hM hsame]
  · obtain ⟨L, Mid, R, a, b, rfl, hL, hMid⟩ := split_at_two xs j i hgt hAn
    have hlen : (L ++ b :: (Mid ++ a :: R)).length = (L ++ a :: (Mid ++ b :: R)).length := by
      simp
    have hB : (M + (L ++ a :: (Mid ++ b :: R)).length) % (L ++ a :: (Mid ++ b :: R)).length
        = L.length := by rw [← hBi, hL]
    have hA : (N + (L ++ a :: (Mid ++ b :: R)).length) % (L ++ a :: (Mid ++ b :: R)).length
        = (L.length : Int) + 1 + Mid.length := by rw [← hAi, ← hMid]; push_cast; ring
    rw [(swap_split _ M N L Mid R a b hM hN hB hA).2, hinner]
    exact (swap_split f M N L Mid R b a (by rw [hlen]; exact hM) (by rw [hlen]; exact hN)
      (by rw [hlen]; exact hB) (by rw [hlen]; exact hA)).2

/-- Witness for C18: `swap<0, -1>` twice on `[1, 2, 3]`. -/
theorem swap_twice_identity_witness :
    ((-(([1, 2, 3] : List Nat).length : Int) ≤ 0 ∧ (0 : Int) < ([1, 2, 3] : List Nat).length) ∧
      (-(([1, 2, 3] : List Nat).length : Int) ≤ -1 ∧
        (-1 : Int) < ([1, 2, 3] : List Nat).length)) ∧
    ∀ f : Continuation Nat Nat, compose [swap 0 (-1), swap 0 (-1)] f [1, 2, 3] = f [1, 2, 3] :=
  ⟨by decide, swap_twice_identity 0 (-1) [1, 2, 3] (by decide) (by decide)⟩

/-- C19: `all_of(p)` returns true exactly when `p` is true of every element of the pack,
and true on the empty pack. -/
theorem all_of_iff_forall (p : α → Bool) (xs : List α) :
    (all_of p xs = true ↔ ∀ x ∈ xs, p x = true) ∧ all_of p ([] : List α) = true := by
  refine ⟨?_, rfl⟩
  show all_of_f p xs = true ↔ _
  rw [all_of_f_eq, List.all_eq_true]

/-- C20: `any_of(p)` returns true exactly when `p` is true of at least one element of the
pack, and false on the empty pack. -/
theorem any_of_iff_exists (p : α → Bool) (xs : List α) :
    (any_of p xs = true ↔ ∃ x ∈ xs, p x = true) ∧ any_of p ([] : List α) = false := by
  refine ⟨?_, rfl⟩
  show any_of_f p xs = true ↔ _
  rw [any_of_f_eq, List.any_eq_true]

/-- C21: for a pure predicate `p`, `none_of(p)` returns the negation of what `any_of(p)`
returns on the same pack, and true on the empty pack. -/
theorem none_of_is_not_any_of (p : α → Bool) (xs : List α) :
    none_of p xs = !(any_of p xs) ∧ none_of p ([] : List α) = true :=
  ⟨none_of_f_eq p xs, rfl⟩

/-- C22: `is_unique<N1, ..., Nk>::value` is true exactly when the `Ni` are pairwise
distinct; it is true of no integer and of a single one. -/
theorem is_unique_iff_pairwise_distinct (Ns : List Int) :
    (is_unique Ns = true ↔ List.Pairwise (fun a b => a ≠ b) Ns) ∧
    is_unique [] = true ∧
    (∀ N : Int, is_unique [N] = true) := by
  refine ⟨?_, rfl, fun N => rfl⟩
  cases Ns with
  | nil => simp [is_unique]
  | cons M Ns =>
    rw [is_unique, is_unique_from_iff, List.pairwise_cons]
    constructor
    · rintro ⟨hM, hNs⟩
      exact ⟨fun b hb hMb => hM (hMb ▸ hb), hNs⟩
    · rintro ⟨hM, hNs⟩
      exact ⟨fun hmem => hM M hmem rfl, hNs⟩

/-- C23, the claim as stated fails: `capture` accepts zero arguments, and `take<0>` on
`[1, 2, 3]` returns without invoking it, where the claim has it invoked with the empty
pack. -/
theorem take_zero_skips_continuation :
    capture ([] : List Nat) = Outcome.returned [] ∧
    take 0 capture [1, 2, 3] = Outcome.nothing ∧
    take 0 capture [1, 2, 3] ≠ capture [] := by
  decide

/-- C23, amended: on every pack and for every continuation, whether or not it accepts
zero arguments, `take<0>` returns `void` without invoking the continuation: no result
is produced. -/
theorem take_zero_never_invokes (f : Continuation α ρ) (xs : List α) :
    take 0 f xs = Outcome.nothing := by
  cases xs <;> rfl

/-- C24: `all_of(p)` applies `p` to the elements in order and stops at the first one for
which it is false: the calls are the elements before the first failing one and that one,
each once; every element once when none fails. -/
theorem all_of_short_circuits (p : α → Bool) (xs : List α) :
    (all_of_f_in (logged p) xs []).1 = all_of p xs ∧
    (all_of_f_in (logged p) xs []).2 = xs.takeWhile p ++ (xs.dropWhile p).take 1 ∧
    (∀ (before after : List α) (x : α), xs = before ++ x :: after →
      (∀ y ∈ before, p y = true) → p x = false →
        (all_of_f_in (logged p) xs []).2 = before ++ [x]) ∧
    ((∀ y ∈ xs, p y = true) → (all_of_f_in (logged p) xs []).2 = xs) := by
  have hrun := all_of_f_in_logged p xs []
  refine ⟨by rw [hrun]; rfl, by rw [hrun]; simp, ?_, ?_⟩
  · intro before after x hxs hbefore hx
    rw [hrun, hxs]
    have htake : (before ++ x :: after).takeWhile p = before := by
      rw [List.takeWhile_append_of_pos hbefore, List.takeWhile_cons_of_neg (by simp [hx])]
      simp
    have hdrop : (before ++ x :: after).dropWhile p = x :: after := by
      rw [List.dropWhile_append_of_pos hbefore, List.dropWhile_cons_of_neg (by simp [hx])]
    rw [htake, hdrop]
    simp
  · intro hall
    rw [hrun]
    have htake : xs.takeWhile p = xs := List.takeWhile_eq_self_iff.mpr hall
    have hdrop : xs.dropWhile p = [] := List.dropWhile_eq_nil_iff.mpr hall
    rw [htake, hdrop]
    simp

/-- C25, the claim as stated fails when two listed indices denote one position: the
indices `0, 1, -3` are pairwise distinct and in bounds for three elements, and
`cycle<0, 1, -3>` on `[10, 20, 30]` passes `[20, 10, 30]`, so the element at `P2 = -3`,
which is `10` at position `0`, has not moved to `P0 = 0`. -/
theorem cycle_aliased_positions :
    List.Pairwise (fun a b : Int => a ≠ b) [0, 1, -3] ∧
    (∀ P ∈ ([0, 1, -3] : List Int), -(([10, 20, 30] : List Nat).length : Int) ≤ P ∧
      P < ([10, 20, 30] : List Nat).length) ∧
    cycle [0, 1, -3] capture [10, 20, 30] = Outcome.returned [20, 10, 30] ∧
    [20, 10, 30][normalise 3 0]? ≠ [10, 20, 30][normalise 3 (-3)]? := by
  decide

/-- C25, amended: for in-bounds indices `P0, ..., Pk` whose normalised positions
`(Pi + n) mod n` are pairwise distinct, `cycle<P0, ..., Pk>`, which composes
`swap<P0, P1>`, `swap<P0, P2>`, ..., `swap<P0, Pk>`, invokes the continuation with a pack
of the same length in which the input element at position `Pi` stands at position
`P(i+1)` for each `i < k`, the input element at `Pk` stands at `P0`, and every element
at an unlisted position is unchanged. -/
theorem cycle_moves_along_positions (P0 : Int) (Ps : List Int) (xs : List α)
    (hbounds : ∀ P ∈ P0 :: Ps, -(xs.length : Int) ≤ P ∧ P < xs.length)
    (hdistinct : ((P0 :: Ps).map (normalise xs.length)).Nodup) :
    ∃ ys : List α,
      (∀ f : Continuation α ρ, cycle (P0 :: Ps) f xs = f ys) ∧
      (∀ f : Continuation α ρ,
        cycle (P0 :: Ps) f xs = compose (Ps.map fun P => swap P0 P) f xs) ∧
      ys.length = xs.length ∧
      (∀ (i : Nat) (P Q : Int), (P0 :: Ps)[i]? = some P → (P0 :: Ps)[i + 1]? = some Q →
        ys[normalise xs.length Q]? = xs[normalise xs.length P]?) ∧
      (∀ Pk : Int, (P0 :: Ps).getLast? = some Pk →
        ys[normalise xs.length P0]? = xs[normalise xs.length Pk]?) ∧
      (∀ j : Nat, (∀ P ∈ P0 :: Ps, normalise xs.length P ≠ j) → ys[j]? = xs[j]?) := by
  obtain ⟨ys, hcycle, hlen, hys⟩ :=
    @cycle_from_pointwise α ρ P0 Ps xs (hbounds P0 (by simp))
      (fun P hP => hbounds P (by simp [hP]))
  have hnodup : (normalise xs.length P0 :: Ps.map (normalise xs.length)).Nodup := by
    simpa using hdistinct
  refine ⟨ys, hcycle, fun f => cycle_from_eq P0 Ps f xs, hlen, ?_, ?_, ?_⟩
  · intro i P Q hP hQ
    rw [hys]
    congr 1
    apply cycle_source_next _ _ hnodup i
    · rw [← List.map_cons, List.getElem?_map, hP]; rfl
    · rw [← List.map_cons, List.getElem?_map, hQ]; rfl
  · intro Pk hPk
    rw [hys]
    congr 1
    apply cycle_source_first _ _ hnodup
    rw [← List.map_cons, List.getLast?_map, hPk]; rfl
  · intro j hj
    rw [hys]
    congr 1
    apply cycle_source_other
    · exact fun h => hj P0 (by simp) h.symm
    · intro hmem
      obtain ⟨P, hP, hPj⟩ := List.mem_map.mp hmem
      exact hj P (by simp [hP]) hPj

/-- Witness for C25 as amended: `cycle<0, -1, 1>` on `[10, 20, 30]`, positions `0, 2, 1`. -/
theorem cycle_moves_along_positions_witness :
    ((∀ P ∈ (0 : Int) :: [-1, 1], -(([10, 20, 30] : List Nat).length : Int) ≤ P ∧
        P < ([10, 20, 30] : List Nat).length) ∧
      (((0 : Int) :: [-1, 1]).map (normalise ([10, 20, 30] : List Nat).length)).Nodup) ∧
    ∃ ys : List Nat,
      (∀ f : Continuation Nat Nat, cycle ((0 : Int) :: [-1, 1]) f [10, 20, 30] = f ys) ∧
      (∀ f : Continuation Nat Nat,
        cycle ((0 : Int) :: [-1, 1]) f [10, 20, 30]
          = compose ([-1, 1].map fun P => swap (0 : Int) P) f [10, 20, 30]) ∧
      ys.length = [10, 20, 30].length ∧
      (∀ (i : Nat) (P Q : Int), ((0 : Int) :: [-1, 1])[i]? = some P →
        ((0 : Int) :: [-1, 1])[i + 1]? = some Q →
        ys[normalise [10, 20, 30].length Q]?
          = [10, 20, 30][normalise [10, 20, 30].length P]?) ∧
      (∀ Pk : Int, ((0 : Int) :: [-1, 1]).getLast? = some Pk →
        ys[normalise [10, 20, 30].length (0 : Int)]?
          = [10, 20, 30][normalise [10, 20, 30].length Pk]?) ∧
      (∀ j : Nat, (∀ P ∈ (0 : Int) :: [-1, 1], normalise [10, 20, 30].length P ≠ j) →
        ys[j]? = [10, 20, 30][j]?) :=
  ⟨by decide, cycle_moves_along_positions 0 [-1, 1] [10, 20, 30] (by decide) (by decide)⟩

end claims

end vta
